import Mathlib

/-!
Verification of the data-resolution core of the graphrag repository
(`src/data_resolution`): entity resolution by fuzzy name matching,
relationship consolidation, and connection discovery.

The Python source is shallowly embedded below.  Modelling conventions:

* Python floats are modelled as exact rationals (`ℚ`).  Because the kernel
  does not reduce `Rat.add`/`Rat.mul`, the embedding computes with
  kernel-reducible mirrors (`qadd`, `qmul`, ...) built from `Rat.divInt`;
  bridge lemmas (`qadd_eq`, ...) identify them with the standard operations.
* `math.sqrt` (used only for transitive-inference confidence) is not
  rational-valued, so the connection discoverer takes the square-root
  function as an explicit parameter `sq`; theorems quantify over it.
* Python `dict` insertion-order semantics are modelled by association lists
  with insert-or-update (`upsert`, `dictInsert`, `groupByKey`).
* `rapidfuzz.fuzz.ratio` is the normalised indel similarity
  `200 * lcs(a,b) / (|a| + |b|)` (in `[0,100]`); `fuzz.partial_ratio` is its
  maximum over all contiguous windows of the longer string having the length
  of the shorter string.  Both strings empty gives 100; exactly one empty
  gives 0 (names in the repository are nonempty, so this boundary choice is
  never exercised by the claims).
* Record fields that no claim mentions and that influence no claim-relevant
  control flow (uuid decision ids, metadata dictionaries, evidence strings,
  timestamps) are omitted from the embedded records.
-/

namespace GraphRAG

/-! ### Kernel-reducible rational arithmetic -/

/-- Kernel-reducible addition on `ℚ`. -/
def qadd (a b : ℚ) : ℚ := Rat.divInt (a.num * b.den + b.num * a.den) (a.den * b.den)

/-- Kernel-reducible negation on `ℚ`. -/
def qneg (a : ℚ) : ℚ := Rat.divInt (-a.num) a.den

/-- Kernel-reducible subtraction on `ℚ`. -/
def qsub (a b : ℚ) : ℚ := qadd a (qneg b)

/-- Kernel-reducible multiplication on `ℚ`. -/
def qmul (a b : ℚ) : ℚ := Rat.divInt (a.num * b.num) (a.den * b.den)

/-- Kernel-reducible division on `ℚ` (division by zero yields zero, as in `ℚ`). -/
def qdiv (a b : ℚ) : ℚ := Rat.divInt (a.num * b.den) (a.den * b.num)

/-- Kernel-reducible `≤` test on `ℚ`. -/
def qleb (a b : ℚ) : Bool := decide (a.num * (b.den : Int) ≤ b.num * (a.den : Int))

/-- Kernel-reducible `<` test on `ℚ`. -/
def qltb (a b : ℚ) : Bool := decide (a.num * (b.den : Int) < b.num * (a.den : Int))

/-- Kernel-reducible binary maximum on `ℚ`. -/
def qmax (a b : ℚ) : ℚ := if qleb a b then b else a

/-- Kernel-reducible binary minimum on `ℚ`. -/
def qmin (a b : ℚ) : ℚ := if qleb a b then a else b

/-- Kernel-reducible cast of a natural number into `ℚ`. -/
def qnat (n : Nat) : ℚ := Rat.divInt n 1

theorem qadd_eq (a b : ℚ) : qadd a b = a + b := by
  rw [qadd, Rat.add_def, Rat.normalize_eq_mkRat, Rat.mkRat_eq_divInt]
  norm_cast

theorem qneg_eq (a : ℚ) : qneg a = -a := by
  rw [qneg, ← Rat.neg_divInt, Rat.divInt_self]

theorem qsub_eq (a b : ℚ) : qsub a b = a - b := by
  rw [qsub, qadd_eq, qneg_eq, sub_eq_add_neg]

theorem qmul_eq (a b : ℚ) : qmul a b = a * b := by
  rw [qmul, Rat.mul_def, Rat.normalize_eq_mkRat, Rat.mkRat_eq_divInt]
  norm_cast

theorem qdiv_eq (a b : ℚ) : qdiv a b = a / b := by
  rcases eq_or_ne b.num 0 with h0 | h0
  · have hb : b = 0 := by
      rw [← Rat.num_div_den b, h0]
      simp
    subst hb
    simp [qdiv, Rat.divInt_zero]
  · rw [qdiv, Rat.div_def, Rat.inv_def]
    rw [show a = Rat.divInt a.num a.den from (Rat.divInt_self a).symm]
    rw [Rat.divInt_mul_divInt _ _ (Int.natCast_ne_zero.mpr a.den_nz) h0]
    rw [Rat.divInt_self]

theorem qleb_iff (a b : ℚ) : qleb a b = true ↔ a ≤ b := by
  rw [qleb, decide_eq_true_iff]
  exact (Rat.le_def).symm

theorem qltb_iff (a b : ℚ) : qltb a b = true ↔ a < b := by
  rw [qltb, decide_eq_true_iff]
  exact (Rat.lt_def).symm

theorem qmax_eq (a b : ℚ) : qmax a b = max a b := by
  rw [qmax, max_def]
  rcases le_or_lt a b with h | h
  · rw [if_pos ((qleb_iff a b).mpr h), if_pos h]
  · rw [if_neg, if_neg (not_le.mpr h)]
    rw [qleb_iff]
    exact not_le.mpr h

theorem qmin_eq (a b : ℚ) : qmin a b = min a b := by
  rw [qmin, min_def]
  rcases le_or_lt a b with h | h
  · rw [if_pos ((qleb_iff a b).mpr h), if_pos h]
  · rw [if_neg, if_neg (not_le.mpr h)]
    rw [qleb_iff]
    exact not_le.mpr h

theorem qnat_eq (n : Nat) : qnat n = (n : ℚ) := by
  rw [qnat, Rat.divInt_eq_div]
  simp

/-! ### Longest common subsequence and the rapidfuzz similarity scores -/

/-- Inner step of the structurally recursive longest-common-subsequence:
`lcsGo a f t` computes `lcs (a :: as) t` given `f = lcs as`. -/
def lcsGo (a : Char) (f : List Char → Nat) : List Char → Nat
  | [] => 0
  | b :: bs => if a = b then f bs + 1 else max (lcsGo a f bs) (f (b :: bs))

/-- Length of the longest common subsequence of two character lists. -/
def lcs : List Char → List Char → Nat
  | [], _ => 0
  | a :: as, t => lcsGo a (lcs as) t

theorem lcs_nil_right (x : List Char) : lcs x [] = 0 := by
  cases x <;> rfl

theorem lcs_cons_cons (a : Char) (as : List Char) (b : Char) (bs : List Char) :
    lcs (a :: as) (b :: bs) =
      if a = b then lcs as bs + 1 else max (lcs (a :: as) bs) (lcs as (b :: bs)) := by
  rfl

theorem lcs_self (x : List Char) : lcs x x = x.length := by
  induction x with
  | nil => rfl
  | cons a as ih => simp [lcs_cons_cons, ih]

theorem lcs_le_left (x : List Char) : ∀ y, lcs x y ≤ x.length := by
  induction x with
  | nil => intro y; simp [lcs]
  | cons a as ih =>
    intro y
    induction y with
    | nil => simp [lcs_nil_right]
    | cons b bs ihy =>
      rw [lcs_cons_cons]
      by_cases h : a = b
      · simpa [h] using Nat.succ_le_succ (ih bs)
      · rw [if_neg h]
        exact max_le ihy (le_trans (ih (b :: bs)) (Nat.le_succ _))

theorem lcs_le_right (x : List Char) : ∀ y, lcs x y ≤ y.length := by
  induction x with
  | nil => intro y; simp [lcs]
  | cons a as ih =>
    intro y
    induction y with
    | nil => simp [lcs_nil_right]
    | cons b bs ihy =>
      rw [lcs_cons_cons]
      by_cases h : a = b
      · simpa [h] using Nat.succ_le_succ (ih bs)
      · rw [if_neg h]
        exact max_le (le_trans ihy (Nat.le_succ _)) (ih (b :: bs))

theorem sublist_of_lcs_eq_length (y x : List Char) (h : lcs x y = x.length) : x.Sublist y := by
  induction y generalizing x with
  | nil =>
    cases x with
    | nil => exact List.Sublist.refl _
    | cons a as => simp [lcs_nil_right] at h
  | cons b bs ih =>
    cases x with
    | nil => exact List.nil_sublist _
    | cons a as =>
      rw [lcs_cons_cons] at h
      by_cases hab : a = b
      · rw [if_pos hab] at h
        subst hab
        exact List.Sublist.cons₂ a (ih as (Nat.succ_injective h))
      · rw [if_neg hab] at h
        have h2 : lcs as (b :: bs) ≤ as.length := lcs_le_left as (b :: bs)
        have h1 : lcs (a :: as) bs = (a :: as).length := by
          rcases max_choice (lcs (a :: as) bs) (lcs as (b :: bs)) with h1 | h1
          · rw [h1] at h; exact h
          · rw [h1] at h; exfalso; simp only [List.length_cons] at h; omega
        exact List.Sublist.cons b (ih (a :: as) h1)

theorem length_le_lcs_of_sublist (y x : List Char) (h : x.Sublist y) : x.length ≤ lcs x y := by
  induction y generalizing x with
  | nil =>
    have := List.sublist_nil.mp h
    subst this
    simp
  | cons b bs ih =>
    rcases List.sublist_cons_iff.mp h with h1 | ⟨x', rfl, h2⟩
    · cases x with
      | nil => simp
      | cons a as =>
        rw [lcs_cons_cons]
        by_cases hab : a = b
        · rw [if_pos hab]
          have has : as.Sublist bs := (List.tail_sublist (a :: as)).trans h1
          exact Nat.succ_le_succ (ih as has)
        · rw [if_neg hab]
          exact le_trans (ih (a :: as) h1) (le_max_left _ _)
    · rw [lcs_cons_cons, if_pos rfl]
      exact Nat.succ_le_succ (ih x' h2)

theorem lcs_eq_length_iff (x y : List Char) : lcs x y = x.length ↔ x.Sublist y := by
  constructor
  · exact sublist_of_lcs_eq_length y x
  · intro h
    exact le_antisymm (lcs_le_left x y) (length_le_lcs_of_sublist y x h)

/-- All contiguous windows of length `n` of a character list, left to right. -/
def windowsOf (n : Nat) : List Char → List (List Char)
  | [] => if n = 0 then [[]] else []
  | c :: rest => if n ≤ (c :: rest).length then (c :: rest).take n :: windowsOf n rest else []

theorem windowsOf_eq_nil_of_lt (n : Nat) : ∀ l : List Char, l.length < n → windowsOf n l = [] := by
  intro l
  induction l with
  | nil =>
    intro h
    have : n ≠ 0 := by omega
    simp [windowsOf, this]
  | cons c rest ih =>
    intro h
    rw [windowsOf, if_neg (by omega)]

theorem windowsOf_self (l : List Char) : windowsOf l.length l = [l] := by
  cases l with
  | nil => rfl
  | cons c rest =>
    rw [windowsOf, if_pos (le_refl _), List.take_length]
    rw [windowsOf_eq_nil_of_lt _ rest (by simp)]

theorem mem_windowsOf (n : Nat) (t u : List Char) :
    u ∈ windowsOf n t ↔ u.length = n ∧ u.IsInfix t := by
  induction t with
  | nil =>
    by_cases h : n = 0
    · subst h
      rw [show windowsOf 0 ([] : List Char) = [[]] from rfl, List.mem_singleton]
      constructor
      · rintro rfl; exact ⟨rfl, List.infix_refl _⟩
      · rintro ⟨h1, _⟩; exact List.eq_nil_of_length_eq_zero h1
    · rw [windowsOf, if_neg h]
      simp only [List.not_mem_nil, false_iff, not_and]
      intro hlen hinf
      rw [List.infix_nil] at hinf
      subst hinf
      exact h hlen.symm
  | cons c rest ih =>
    by_cases h : n ≤ (c :: rest).length
    · rw [windowsOf, if_pos h, List.mem_cons, ih]
      constructor
      · rintro (rfl | ⟨h1, h2⟩)
        · refine ⟨by simpa using h, ?_⟩
          exact (List.take_prefix n (c :: rest)).isInfix
        · exact ⟨h1, h2.trans (List.suffix_cons c rest).isInfix⟩
      · rintro ⟨h1, h2⟩
        rcases List.infix_cons_iff.mp h2 with h3 | h3
        · left
          rw [List.prefix_iff_eq_take.mp h3, h1]
        · right
          exact ⟨h1, h3⟩
    · rw [windowsOf_eq_nil_of_lt n (c :: rest) (by omega)]
      simp only [List.not_mem_nil, false_iff, not_and]
      intro hlen hinf
      have := hinf.length_le
      omega

/-- `rapidfuzz.fuzz.ratio` on character lists: normalised indel similarity in `[0,100]`. -/
def ratioL (x y : List Char) : ℚ :=
  if x.length + y.length = 0 then 100
  else Rat.divInt (200 * (lcs x y : Int)) ((x.length : Int) + (y.length : Int))

/-- `partRatioGo s t` assumes `s` is the shorter list: the best `ratioL s` over
all windows of `t` of length `s.length`. -/
def partRatioGo (s t : List Char) : ℚ :=
  if s.length = 0 then (if t.length = 0 then (100 : ℚ) else 0)
  else ((windowsOf s.length t).map (ratioL s)).foldl qmax 0

/-- `rapidfuzz.fuzz.partial_ratio` on character lists: the best `ratioL` of the
shorter list against any window of the longer list having the shorter length. -/
def partRatioL (x y : List Char) : ℚ :=
  if x.length ≤ y.length then partRatioGo x y else partRatioGo y x

/-- `rapidfuzz.fuzz.ratio` on strings. -/
def ratioS (a b : String) : ℚ := ratioL a.data b.data

/-- `rapidfuzz.fuzz.partial_ratio` on strings. -/
def partRatio (a b : String) : ℚ := partRatioL a.data b.data

theorem ratioL_self (x : List Char) : ratioL x x = 100 := by
  rcases eq_or_ne x.length 0 with h | h
  · rw [ratioL, if_pos (by omega)]
  · rw [ratioL, if_neg (by omega), lcs_self]
    rw [Rat.divInt_eq_div]
    push_cast
    rw [div_eq_iff (by positivity)]
    ring

theorem ratioL_nonneg (x y : List Char) : 0 ≤ ratioL x y := by
  rw [ratioL]
  split
  · norm_num
  · exact Rat.divInt_nonneg (by positivity) (by positivity)

theorem ratioL_le_100 (x y : List Char) : ratioL x y ≤ 100 := by
  rw [ratioL]
  split
  · norm_num
  · rename_i h
    rw [Rat.divInt_eq_div]
    have hpos : (0 : ℚ) < (x.length : ℚ) + (y.length : ℚ) := by
      have : 0 < x.length + y.length := Nat.pos_of_ne_zero h
      exact_mod_cast this
    rw [div_le_iff₀ (by push_cast at hpos ⊢; exact_mod_cast hpos)]
    have h1 : lcs x y ≤ x.length := lcs_le_left x y
    have h2 : lcs x y ≤ y.length := lcs_le_right x y
    have : (200 * (lcs x y : Int)) ≤ 100 * ((x.length : Int) + (y.length : Int)) := by omega
    exact_mod_cast this

theorem foldl_qmax_le (l : List ℚ) (b c : ℚ) (hb : b ≤ c) (h : ∀ a ∈ l, a ≤ c) :
    l.foldl qmax b ≤ c := by
  induction l generalizing b with
  | nil => simpa using hb
  | cons x xs ih =>
    rw [List.foldl_cons]
    exact ih _ (by rw [qmax_eq]; exact max_le hb (h x (List.mem_cons_self x xs)))
      (fun a ha => h a (List.mem_cons_of_mem x ha))

theorem init_le_foldl_qmax (l : List ℚ) (b : ℚ) : b ≤ l.foldl qmax b := by
  induction l generalizing b with
  | nil => simp
  | cons x xs ih =>
    rw [List.foldl_cons]
    refine le_trans ?_ (ih (qmax b x))
    rw [qmax_eq]
    exact le_max_left _ _

theorem le_foldl_qmax (l : List ℚ) (b a : ℚ) (h : a ∈ l) : a ≤ l.foldl qmax b := by
  induction l generalizing b with
  | nil => simp at h
  | cons x xs ih =>
    rw [List.foldl_cons]
    rcases List.mem_cons.mp h with rfl | h
    · refine le_trans ?_ (init_le_foldl_qmax xs (qmax b a))
      rw [qmax_eq]
      exact le_max_right _ _
    · exact ih _ h

theorem partRatioGo_self (x : List Char) : partRatioGo x x = 100 := by
  rw [partRatioGo]
  rcases eq_or_ne x.length 0 with h | h
  · rw [if_pos h, if_pos h]
  · rw [if_neg h, windowsOf_self, List.map_singleton, ratioL_self]
    rw [List.foldl_cons, List.foldl_nil, qmax_eq]
    norm_num

theorem partRatio_self (s : String) : partRatio s s = 100 := by
  rw [partRatio, partRatioL, if_pos (le_refl _)]
  exact partRatioGo_self _

theorem partRatioGo_le_100 (s t : List Char) : partRatioGo s t ≤ 100 := by
  rw [partRatioGo]
  split
  · split <;> norm_num
  · refine foldl_qmax_le _ _ _ (by norm_num) ?_
    intro a ha
    rcases List.mem_map.mp ha with ⟨u, _, rfl⟩
    exact ratioL_le_100 _ _

theorem partRatioL_le_100 (x y : List Char) : partRatioL x y ≤ 100 := by
  rw [partRatioL]
  split <;> exact partRatioGo_le_100 _ _

theorem partRatio_le_100 (a b : String) : partRatio a b ≤ 100 := partRatioL_le_100 _ _

/-! ### Python string helpers (`str.lower`, `str.strip`, punctuation removal,
`str.split`, `str.upper`), implemented on the character data so that the
kernel can evaluate them. -/

/-- ASCII punctuation, the character set of Python's `string.punctuation`. -/
def isPunctChar (c : Char) : Bool :=
  (33 ≤ c.toNat && c.toNat ≤ 47) || (58 ≤ c.toNat && c.toNat ≤ 64) ||
    (91 ≤ c.toNat && c.toNat ≤ 96) || (123 ≤ c.toNat && c.toNat ≤ 126)

/-- `EntityResolver.clean_entity_name`: lowercase, strip surrounding
whitespace, then delete ASCII punctuation. -/
def cleanName (s : String) : String :=
  String.mk (((((s.data.map Char.toLower).dropWhile Char.isWhitespace).reverse.dropWhile
    Char.isWhitespace).reverse).filter (fun c => !(isPunctChar c)))

/-- Splitter for Python `str.split()`: split on whitespace runs, no empty words. -/
def wordsGo : List Char → List Char → List (List Char)
  | [], cur => if cur.isEmpty then [] else [cur]
  | c :: cs, cur =>
    if c.isWhitespace then (if cur.isEmpty then wordsGo cs [] else cur :: wordsGo cs [])
    else wordsGo cs (cur ++ [c])

/-- Python `str.split()` with no separator argument. -/
def pyWords (s : String) : List String := (wordsGo s.data []).map String.mk

/-- Python `str.upper()` (ASCII). -/
def upperStr (s : String) : String := String.mk (s.data.map Char.toUpper)

/-- Python `" " in name`: does the string contain a space character? -/
def hasSpace (s : String) : Bool := s.data.any (fun c => decide (c = ' '))

/-- Python code-point-wise lexicographic string comparison. -/
def listCharLt : List Char → List Char → Bool
  | [], [] => false
  | [], _ :: _ => true
  | _ :: _, [] => false
  | c :: cs, d :: ds =>
    if c.toNat < d.toNat then true else if d.toNat < c.toNat then false else listCharLt cs ds

/-- Python `<` on strings. -/
def strLt (a b : String) : Bool := listCharLt a.data b.data

/-- Kernel-reducible absolute value on `ℚ`. -/
def qabs (a : ℚ) : ℚ := if qleb 0 a then a else qneg a

theorem qabs_eq (a : ℚ) : qabs a = |a| := by
  rw [qabs, abs]
  rcases le_or_lt 0 a with h | h
  · rw [if_pos ((qleb_iff 0 a).mpr h)]
    simp [sup_eq_max, max_eq_left (by linarith : -a ≤ a)]
  · rw [if_neg (by rw [qleb_iff]; exact not_le.mpr h), qneg_eq]
    simp [sup_eq_max, max_eq_right (by linarith : a ≤ -a)]

/-! ### Data model (`entity_extraction/models.py`, `data_resolution/models.py`) -/

/-- The closed set of entity types. -/
inductive EntityType where
  | kpi | table | column | metric | dataSource | domain | formula | definition
deriving DecidableEq

/-- The closed set of relationship predicates. -/
inductive PredicateType where
  | hasDefinition | calculatedBy | belongsTo | contains | hasType
  | dependsOn | derivedFrom | measures | locatedIn
deriving DecidableEq

/-- An extracted entity.  Attribute values are modelled as strings (the code
stringifies them with `str(...)` before every comparison). -/
structure Entity where
  id : String
  type : EntityType
  name : String
  description : Option String
  confidence : ℚ
  attributes : List (String × String)
  sourceChunkId : Option String
deriving DecidableEq

/-- An extracted relationship. -/
structure Relationship where
  id : String
  subjectId : String
  predicate : PredicateType
  objectId : String
  confidence : ℚ
  context : Option String
  sourceChunkId : Option String
deriving DecidableEq

/-- An entity-resolution decision (uuid id, metadata and timestamp omitted). -/
structure EntityDecision where
  canonicalEntityId : String
  duplicateEntityIds : List String
  similarityScore : ℚ
  resolutionMethod : String
  confidence : ℚ
deriving DecidableEq

/-- Relationship-resolution actions used by the resolver. -/
inductive RAction where
  | keepCanonical | consolidateRelationships
deriving DecidableEq

/-- A relationship-resolution decision (uuid id, metadata, timestamp omitted). -/
structure RelationshipDecision where
  action : RAction
  canonicalRelationshipId : String
  mergedRelationshipIds : List String
  consolidatedConfidence : ℚ
  consolidationMethod : String
deriving DecidableEq

/-- A discovered connection proposal (uuid id, evidence strings, similarity
feature map and metadata omitted; none of them influence claim-relevant
control flow). -/
structure Discovery where
  subjectEntityId : String
  objectEntityId : String
  suggestedPredicate : PredicateType
  confidence : ℚ
  discoveryMethod : String
deriving DecidableEq

/-! ### Python `dict` semantics -/

/-- Append `v` to the group of key `k`, preserving dict insertion order. -/
def upsert {κ α : Type} [DecidableEq κ] (k : κ) (v : α) : List (κ × List α) → List (κ × List α)
  | [] => [(k, [v])]
  | (k1, vs) :: rest => if k1 = k then (k1, vs ++ [v]) :: rest else (k1, vs) :: upsert k v rest

/-- `defaultdict(list)` grouping with Python dict iteration order. -/
def groupByKey {κ α : Type} [DecidableEq κ] (key : α → κ) (l : List α) : List (κ × List α) :=
  l.foldl (fun acc x => upsert (key x) x acc) []

/-- `d[entity.id] = entity` on an id-keyed dict: replace in place or append. -/
def dictInsert (e : Entity) : List Entity → List Entity
  | [] => [e]
  | x :: xs => if x.id = e.id then e :: xs else x :: dictInsert e xs

/-- `m[k] = v` on a string-keyed dict. -/
def mapUpsert (k v : String) : List (String × String) → List (String × String)
  | [] => [(k, v)]
  | (k1, v1) :: rest => if k1 = k then (k1, v) :: rest else (k1, v1) :: mapUpsert k v rest

/-- `m.get(x, x)`: look `x` up, defaulting to `x` itself. -/
def lookupOrSelf (m : List (String × String)) (x : String) : String :=
  match m.find? (fun p => decide (p.1 = x)) with
  | some p => p.2
  | none => x

/-! ### Entity resolver (`entity_resolver.py`) -/

/-- The pairwise fuzzy-match test of `_group_entities_by_fuzzy_match`:
`fuzz.partial_ratio(clean(a), clean(b)) >= threshold`. -/
def similarityTest (τ : ℚ) (a b : String) : Bool :=
  qleb τ (partRatio (cleanName a) (cleanName b))

/-- Greedy single-pass clustering over name buckets, tracking used names.
`all` is the full bucket list (the inner Python loop rescans all names). -/
def formClustersGo (τ : ℚ) (all : List (String × List Entity)) :
    List String → List String → List (String × List Entity)
  | [], _ => []
  | n :: rest, used =>
    if n ∈ used then formClustersGo τ all rest used
    else
      let matched := all.filter (fun b => decide (b.1 ∉ used) && similarityTest τ n b.1)
      let ces := matched.foldr (fun b acc => b.2 ++ acc) []
      if ces.isEmpty then formClustersGo τ all rest used
      else (n, ces) :: formClustersGo τ all rest (used ++ matched.map Prod.fst)

/-- `_group_entities_by_fuzzy_match` applied to the name buckets. -/
def formClusters (τ : ℚ) (buckets : List (String × List Entity)) :
    List (String × List Entity) :=
  formClustersGo τ buckets (buckets.map Prod.fst) []

/-- Total partial-ratio similarity of member `i` to every other member. -/
def medoidScore (es : List Entity) (i : Nat) (e : Entity) : ℚ :=
  es.enum.foldl
    (fun acc p =>
      if p.1 = i then acc
      else qadd acc (partRatio (cleanName e.name) (cleanName p.2.name))) 0

/-- Members of a cluster paired with their total similarity score. -/
def scoredEntities (es : List Entity) : List (Entity × ℚ) :=
  es.enum.map (fun p => (p.2, medoidScore es p.1 p.2))

/-- Python `max(..., key=score)`: first element attaining the maximum. -/
def firstMaxScore : List (Entity × ℚ) → Option (Entity × ℚ)
  | [] => none
  | p :: rest => some (rest.foldl (fun best q => if qltb best.2 q.2 then q else best) p)

/-- Python `max(..., key=confidence)`: first entity attaining the maximum. -/
def firstMaxConf : List Entity → Option Entity
  | [] => none
  | e :: rest =>
    some (rest.foldl (fun best x => if qltb best.confidence x.confidence then x else best) e)

/-- The within-10-points candidate set of `_select_medoid_entity`. -/
def medoidCandidates (es : List Entity) : List Entity :=
  match firstMaxScore (scoredEntities es) with
  | none => []
  | some best =>
    ((scoredEntities es).filter (fun p => qltb (qabs (qsub p.2 best.2)) 10)).map Prod.fst

/-- `_select_medoid_entity`. -/
def selectMedoid (es : List Entity) : Option Entity :=
  match es with
  | [] => none
  | [e] => some e
  | e1 :: e2 :: rest =>
    match firstMaxScore (scoredEntities (e1 :: e2 :: rest)) with
    | none => none
    | some best =>
      let cands := medoidCandidates (e1 :: e2 :: rest)
      if 1 < cands.length then
        match firstMaxConf cands with
        | some m => some m
        | none => some best.1
      else some best.1

/-- Ordered pairs `(i, j)` with `i < j`, the Python `for i ... for j in i+1..` loop. -/
def pairsOf {α : Type} : List α → List (α × α)
  | [] => []
  | x :: xs => xs.map (fun y => (x, y)) ++ pairsOf xs

/-- `_calculate_cluster_similarity`: average pairwise partial ratio, scaled to `[0,1]`. -/
def clusterSimilarity (es : List Entity) : ℚ :=
  if es.length < 2 then 1
  else
    let ps := pairsOf es
    let total := ps.foldl
      (fun acc p => qadd acc (partRatio (cleanName p.1.name) (cleanName p.2.name))) 0
    if 0 < ps.length then qdiv (qdiv total (qnat ps.length)) (qnat 100) else 1

/-- `_calculate_resolution_confidence`. -/
def resolutionConfidence (es : List Entity) : ℚ :=
  if es.length < 2 then 1
  else
    let avgConf := qdiv (es.foldl (fun acc e => qadd acc e.confidence) 0) (qnat es.length)
    let cs := clusterSimilarity es
    let conf := qdiv (qadd avgConf cs) (qnat 2)
    if qltb (Rat.divInt 9 10) cs then qmin 1 (qadd conf (Rat.divInt 1 10)) else conf

/-- `_find_matching_canonical_entity`: the first strictly-best same-type
canonical whose similarity is at least the threshold. -/
def findMatchingCanonical (τ : ℚ) (canon : List Entity) (e : Entity) : Option Entity :=
  (canon.foldl
    (fun (acc : ℚ × Option Entity) c =>
      if c.type = e.type then
        let score := partRatio (cleanName e.name) (cleanName c.name)
        if qltb acc.1 score && qleb τ score then (score, some c) else acc
      else acc)
    (0, none)).2

/-- Mutable state of the resolver: the canonical-entity dict and the decision list. -/
structure RState where
  canonical : List Entity
  decisions : List EntityDecision
deriving DecidableEq

/-- `_resolve_entity_cluster`. -/
def resolveEntityCluster (τ : ℚ) (st : RState) (es : List Entity) : RState :=
  match selectMedoid es with
  | none => st
  | some m =>
    match findMatchingCanonical τ st.canonical m with
    | some ex =>
      let dups := es.map (fun e => e.id)
      if dups.isEmpty then st
      else
        { st with
          decisions := st.decisions ++
            [⟨ex.id, dups, clusterSimilarity es, "fuzzy_match_medoid", resolutionConfidence es⟩] }
    | none =>
      let dups := (es.filter (fun e => decide (e.id ≠ m.id))).map (fun e => e.id)
      if dups.isEmpty then { st with canonical := dictInsert m st.canonical }
      else
        { canonical := dictInsert m st.canonical,
          decisions := st.decisions ++
            [⟨m.id, dups, clusterSimilarity es, "fuzzy_match_medoid", resolutionConfidence es⟩] }

/-- The per-cluster step of `_resolve_entities_by_type`. -/
def processCluster (τ : ℚ) (st : RState) (cl : String × List Entity) : RState :=
  match cl.2 with
  | [] => st
  | [e] => { st with canonical := dictInsert e st.canonical }
  | e1 :: e2 :: rest => resolveEntityCluster τ st (e1 :: e2 :: rest)

/-- `_resolve_entities_by_type`. -/
def resolveByType (τ : ℚ) (st : RState) (es : List Entity) : RState :=
  (formClusters τ (groupByKey (fun e => e.name) es)).foldl (processCluster τ) st

/-- `"".join(word[0].upper() for word in name.split())`. -/
def acronymOf (s : String) : String :=
  String.mk ((pyWords s).map (fun w => (w.data.headD 'A').toUpper))

/-- `_merge_acronym_entities`: the acronym decisions and the ids slated for
removal, in the order the Python loop produces them. -/
def acronymStep (τa : ℚ) (canon : List Entity) : List EntityDecision × List String :=
  let multi := canon.filter (fun e => hasSpace e.name)
  let single := canon.filter (fun e => !(hasSpace e.name))
  multi.foldl
    (fun (acc : List EntityDecision × List String) mw =>
      match single.find? (fun sw =>
          decide (sw.type = mw.type) &&
            qleb τa (ratioS (acronymOf mw.name) (upperStr sw.name))) with
      | some sw =>
        (acc.1 ++
            [⟨mw.id, [sw.id], qdiv (ratioS (acronymOf mw.name) (upperStr sw.name)) (qnat 100),
              "acronym_match", Rat.divInt 9 10⟩],
          acc.2 ++ [sw.id])
      | none => acc)
    ([], [])

/-- The per-type fuzzy-clustering phase of `resolve_entities` (everything
before the acronym pass). -/
def fuzzyResolve (τ : ℚ) (entities : List Entity) : RState :=
  (groupByKey (fun e => e.type) entities).foldl (fun s p => resolveByType τ s p.2) ⟨[], []⟩

/-- `EntityResolver.resolve_entities`: the whole entity-resolution stage. -/
def resolveEntities (τ τa : ℚ) (enableAcr : Bool) (entities : List Entity) :
    List Entity × List EntityDecision :=
  let st := fuzzyResolve τ entities
  if enableAcr then
    let ar := acronymStep τa st.canonical
    (st.canonical.filter (fun c => decide (c.id ∉ ar.2)), st.decisions ++ ar.1)
  else (st.canonical, st.decisions)

/-- `run_relationship_resolution`'s construction of the ID-remap table from
the entity decisions (`run_resolution.py`, lines 142-146). -/
def buildEntityIdMapping (decs : List EntityDecision) : List (String × String) :=
  decs.foldl
    (fun m d => d.duplicateEntityIds.foldl (fun m2 dup => mapUpsert dup d.canonicalEntityId m2) m)
    []

/-! ### Relationship resolver (`relationship_resolver.py`) -/

/-- Python `str.strip()`. -/
def pyStrip (s : String) : String :=
  String.mk (((s.data.dropWhile Char.isWhitespace).reverse.dropWhile Char.isWhitespace).reverse)

/-- Python `str.lower()` (ASCII). -/
def pyLower (s : String) : String := String.mk (s.data.map Char.toLower)

/-- The confidence-consolidation policy (`max` is the default; any unknown
string also falls back to `max` in the source, so the closed sum type loses
no behaviour). -/
inductive ConsolidationMethod where
  | maxConf | average | weighted
deriving DecidableEq

/-- The Python name of a consolidation policy. -/
def methodName : ConsolidationMethod → String
  | .maxConf => "max"
  | .average => "average"
  | .weighted => "weighted"

/-- `len(r.context or "")`. -/
def ctxLen (r : Relationship) : Nat := (r.context.getD "").length

/-- The rewrite of one relationship by `_update_relationship_entity_ids`:
remap both endpoints, rebuilding the record only when an endpoint changed. -/
def rewriteRel (m : List (String × String)) (r : Relationship) : Relationship :=
  let newSubj := lookupOrSelf m r.subjectId
  let newObj := lookupOrSelf m r.objectId
  if newSubj ≠ r.subjectId ∨ newObj ≠ r.objectId then
    ⟨r.id, newSubj, r.predicate, newObj, r.confidence, r.context, r.sourceChunkId⟩
  else r

/-- `_update_relationship_entity_ids` (an append loop over the input list). -/
def updateRelationshipEntityIds (rels : List Relationship) (m : List (String × String)) :
    List Relationship :=
  rels.foldl (fun acc r => acc ++ [rewriteRel m r]) []

/-- Strict "better" test of `_select_best_relationship`:
lexicographic on (confidence, context length, id). -/
def relKeyGt (r s : Relationship) : Bool :=
  qltb s.confidence r.confidence ||
    (decide (s.confidence = r.confidence) &&
      (decide (ctxLen s < ctxLen r) ||
        (decide (ctxLen s = ctxLen r) && strLt s.id r.id)))

/-- `_select_best_relationship`: Python `max` keeps the first maximum. -/
def selectBestRelationship (rels : List Relationship) : Option Relationship :=
  match rels with
  | [] => none
  | r :: rest => some (rest.foldl (fun best x => if relKeyGt x best then x else best) r)

/-- The `(subject, predicate, object)` grouping key of `_remove_exact_duplicates`. -/
def spoKey (r : Relationship) : String × PredicateType × String :=
  (r.subjectId, r.predicate, r.objectId)

/-- `_remove_exact_duplicates`, returning the kept list and the decisions. -/
def removeExactDuplicates (rels : List Relationship) :
    List Relationship × List RelationshipDecision :=
  (groupByKey spoKey rels).foldl
    (fun acc g =>
      match g.2 with
      | [] => acc
      | [r] => (acc.1 ++ [r], acc.2)
      | r1 :: r2 :: rest =>
        match selectBestRelationship (r1 :: r2 :: rest) with
        | none => acc
        | some best =>
          let dupIds :=
            ((r1 :: r2 :: rest).filter (fun r => decide (r.id ≠ best.id))).map Relationship.id
          if dupIds.isEmpty then (acc.1 ++ [best], acc.2)
          else
            (acc.1 ++ [best],
              acc.2 ++ [⟨.keepCanonical, best.id, dupIds, best.confidence,
                "exact_duplicate_removal"⟩]))
    ([], [])

/-- Python `max` over a nonempty list of rationals (0 on the empty list,
which the source never reaches). -/
def qmaxList : List ℚ → ℚ
  | [] => 0
  | c :: cs => cs.foldl qmax c

/-- Sum of a list of rationals. -/
def qsum (l : List ℚ) : ℚ := l.foldl qadd 0

/-- `_consolidate_confidence_scores`. -/
def consolidateConfidenceScores (cm : ConsolidationMethod) (rels : List Relationship) : ℚ :=
  match rels with
  | [] => 0
  | [r] => r.confidence
  | r1 :: r2 :: rest =>
    let all := r1 :: r2 :: rest
    let confs := all.map Relationship.confidence
    match cm with
    | .maxConf => qmaxList confs
    | .average => qdiv (qsum confs) (qnat confs.length)
    | .weighted =>
      let weights := all.map (fun r => max 1 (ctxLen r))
      let totalW := weights.foldl (fun a b => a + b) 0
      let wsum := qsum ((confs.zip weights).map (fun p => qmul p.1 (qnat p.2)))
      if 0 < totalW then qdiv wsum (qnat totalW) else qdiv (qsum confs) (qnat confs.length)

/-- `_merge_contexts`. -/
def mergeContexts (rels : List Relationship) : Option String :=
  let contexts := rels.filterMap (fun r =>
    match r.context with
    | some c => if c ≠ "" ∧ pyStrip c ≠ "" then some c else none
    | none => none)
  match contexts with
  | [] => none
  | [c] => some c
  | c1 :: c2 :: rest =>
    let uniq := ((c1 :: c2 :: rest).foldl
      (fun (acc : List String × List String) c =>
        let key := pyStrip (pyLower c)
        if key ∈ acc.2 then acc else (acc.1 ++ [pyStrip c], acc.2 ++ [key]))
      ([], [])).1
    if 1 < uniq.length then some (String.intercalate " | " uniq)
    else
      match uniq with
      | [u] => some u
      | _ => none

/-- `_consolidate_predicate_group`: fuse a same-pair same-predicate group. -/
def consolidatePredicateGroup (cm : ConsolidationMethod) (rels : List Relationship) :
    Relationship × List RelationshipDecision :=
  match rels with
  | [] => (⟨"", "", .dependsOn, "", 0, none, none⟩, [])
  | [r] => (r, [])
  | r1 :: r2 :: rest =>
    let all := r1 :: r2 :: rest
    match selectBestRelationship all with
    | none => (r1, [])
    | some base =>
      let conf := consolidateConfidenceScores cm all
      let ctx := mergeContexts all
      let newRel : Relationship :=
        ⟨base.id, base.subjectId, base.predicate, base.objectId, conf, ctx, base.sourceChunkId⟩
      let mergedIds := (all.filter (fun r => decide (r.id ≠ base.id))).map Relationship.id
      if mergedIds.isEmpty then (newRel, [])
      else
        (newRel, [⟨.consolidateRelationships, base.id, mergedIds, conf,
          "predicate_group_" ++ methodName cm⟩])

/-- `tuple(sorted([subject_id, object_id]))`: the unordered endpoint-pair key. -/
def pairKey (r : Relationship) : List String :=
  if strLt r.objectId r.subjectId then [r.objectId, r.subjectId] else [r.subjectId, r.objectId]

/-- `_consolidate_relationship_group`: split a same-pair group by predicate. -/
def consolidateRelationshipGroup (cm : ConsolidationMethod) (rels : List Relationship) :
    List Relationship × List RelationshipDecision :=
  if rels.length ≤ 1 then (rels, [])
  else
    (groupByKey Relationship.predicate rels).foldl
      (fun acc g =>
        match g.2 with
        | [] => acc
        | [r] => (acc.1 ++ [r], acc.2)
        | r1 :: r2 :: rest =>
          let res := consolidatePredicateGroup cm (r1 :: r2 :: rest)
          (acc.1 ++ [res.1], acc.2 ++ res.2))
      ([], [])

/-- `_consolidate_similar_relationships`: group by the unordered endpoint pair. -/
def consolidateSimilarRelationships (cm : ConsolidationMethod) (rels : List Relationship) :
    List Relationship × List RelationshipDecision :=
  (groupByKey pairKey rels).foldl
    (fun acc g =>
      match g.2 with
      | [] => acc
      | [r] => (acc.1 ++ [r], acc.2)
      | r1 :: r2 :: rest =>
        let res := consolidateRelationshipGroup cm (r1 :: r2 :: rest)
        (acc.1 ++ res.1, acc.2 ++ res.2))
    ([], [])

/-- `RelationshipResolver.resolve_relationships`: rewrite endpoints (skipped
when the mapping dict is empty/falsy), drop exact duplicates, consolidate. -/
def resolveRelationships (cm : ConsolidationMethod) (rels : List Relationship)
    (m : List (String × String)) : List Relationship × List RelationshipDecision :=
  let updated := if m.isEmpty then rels else updateRelationshipEntityIds rels m
  let d := removeExactDuplicates updated
  let c := consolidateSimilarRelationships cm d.1
  (c.1, d.2 ++ c.2)

/-! ### Connection discoverer (`connection_discoverer.py`)

`math.sqrt` is taken as a parameter `sq : ℚ → ℚ` (it only enters the
transitive-inference confidence).  The unused `_entity_connectivity` side
structure is omitted.  Attribute maps model Python dicts, so keys are unique. -/

/-- Configuration of the discovery stage (a slice of `load_config`). -/
structure DiscoveryConfig where
  similarityThreshold : ℚ
  descriptionWeight : ℚ
  nameWeight : ℚ
  enableTransitiveDiscovery : Bool
  enableDomainRules : Bool
  minDiscoveryConfidence : ℚ
  maxDiscoveriesPerRun : Nat
deriving DecidableEq

/-- The default configuration values of `load_config` / the class defaults. -/
def defaultConfig : DiscoveryConfig :=
  ⟨Rat.divInt 3 5, Rat.divInt 2 5, Rat.divInt 3 5, true, true, Rat.divInt 1 2, 1000⟩

/-- `{e.id: e for e in entities}` followed by `.get`: the last entity with the id wins. -/
def entityLookup (entities : List Entity) (i : String) : Option Entity :=
  entities.reverse.find? (fun e => decide (e.id = i))

/-- `map` + `flatten`, used for the Python nested `for` loops. -/
def flatMapL {α β : Type} (f : α → List β) (l : List α) : List β := (l.map f).flatten

/-- Count occurrences of a predicate in a list. -/
def countOcc (l : List PredicateType) (p : PredicateType) : Nat :=
  (l.filter (fun x => decide (x = p))).length

/-- Distinct values in order of first occurrence (the `Counter` key order). -/
def dedupFirst (l : List PredicateType) : List PredicateType :=
  l.foldl (fun acc p => if p ∈ acc then acc else acc ++ [p]) []

/-- Stable insertion for `stableSort` (insert before the first element that
the new element may precede). -/
def stableInsert {α : Type} (le : α → α → Bool) (x : α) : List α → List α
  | [] => [x]
  | y :: ys => if le x y then x :: y :: ys else y :: stableInsert le x ys

/-- A stable sort (insertion sort), matching Python's stable `sorted`/`.sort`. -/
def stableSort {α : Type} (le : α → α → Bool) (l : List α) : List α :=
  l.foldr (stableInsert le) []

/-- `Counter(...).most_common(3)`: distinct predicates stably ordered by
descending count, first three. -/
def mostCommon3 (l : List PredicateType) : List PredicateType :=
  (stableSort (fun a b => decide (countOcc l b ≤ countOcc l a)) (dedupFirst l)).take 3

/-- `_extract_relationship_patterns`. -/
def extractPatterns (rels : List Relationship) (entities : List Entity) :
    List ((EntityType × EntityType) × List PredicateType) :=
  let typed := rels.filterMap (fun r =>
    match entityLookup entities r.subjectId, entityLookup entities r.objectId with
    | some s, some o => some ((s.type, o.type), r.predicate)
    | _, _ => none)
  (groupByKey Prod.fst typed).map (fun g => (g.1, mostCommon3 (g.2.map Prod.snd)))

/-- `attrs.get(key)`-style lookup on an attribute map. -/
def attrGet (a : List (String × String)) (k : String) : String :=
  ((a.find? (fun p => decide (p.1 = k))).map Prod.snd).getD ""

/-- `_calculate_attribute_similarity`. -/
def attrSimilarity (a1 a2 : List (String × String)) : ℚ :=
  if a1.isEmpty ∨ a2.isEmpty then 0
  else
    let keys2 := a2.map Prod.fst
    let common := (a1.map Prod.fst).filter (fun k => decide (k ∈ keys2))
    if common.isEmpty then 0
    else
      let total := common.foldl
        (fun acc k =>
          let v1 := pyLower (attrGet a1 k)
          let v2 := pyLower (attrGet a2 k)
          if v1 = v2 then qadd acc 1 else qadd acc (qdiv (ratioS v1 v2) (qnat 100)))
        0
      qdiv total (qnat common.length)

/-- `_calculate_entity_similarity` (the composite score; the feature map it
also returns carries no further information). -/
def calcEntitySimilarity (cfg : DiscoveryConfig) (e1 e2 : Entity) : ℚ :=
  let nameSim := qdiv (partRatio (pyLower e1.name) (pyLower e2.name)) (qnat 100)
  let descSim :=
    match e1.description, e2.description with
    | some d1, some d2 =>
      if d1 ≠ "" ∧ d2 ≠ "" then qdiv (partRatio (pyLower d1) (pyLower d2)) (qnat 100) else 0
    | _, _ => 0
  let attrSim := attrSimilarity e1.attributes e2.attributes
  let typeBoost : ℚ := if e1.type = e2.type then 1 else Rat.divInt 4 5
  qmul
    (qadd (qadd (qmul nameSim cfg.nameWeight) (qmul descSim cfg.descriptionWeight))
      (qmul attrSim (Rat.divInt 1 5)))
    typeBoost

/-- `_get_existing_entity_pairs`: both orientations of every edge. -/
def existingPairs (rels : List Relationship) : List (String × String) :=
  rels.foldl (fun acc r => acc ++ [(r.subjectId, r.objectId), (r.objectId, r.subjectId)]) []

/-- `_entities_connected`. -/
def connected (pairs : List (String × String)) (i j : String) : Bool :=
  decide ((i, j) ∈ pairs)

/-- The fixed fallback table of `_suggest_predicate_from_similarity`. -/
def defaultSuggestion (t1 t2 : EntityType) : PredicateType :=
  match t1, t2 with
  | .kpi, .metric => .dependsOn
  | .metric, .formula => .calculatedBy
  | .metric, .table => .derivedFrom
  | .column, .table => .belongsTo
  | .definition, .kpi => .hasDefinition
  | _, _ => .dependsOn

/-- Dictionary lookup in the learned pattern table. -/
def patternsFind (pats : List ((EntityType × EntityType) × List PredicateType))
    (t1 t2 : EntityType) : Option (List PredicateType) :=
  (pats.find? (fun g => decide (g.1 = (t1, t2)))).map Prod.snd

/-- `_suggest_predicate_from_similarity`. -/
def suggestPredicate (pats : List ((EntityType × EntityType) × List PredicateType))
    (e1 e2 : Entity) : PredicateType :=
  match patternsFind pats e1.type e2.type with
  | some ps => ps.headD (defaultSuggestion e1.type e2.type)
  | none => defaultSuggestion e1.type e2.type

/-- Method A, `_discover_by_similarity`. -/
def discoverBySimilarity (cfg : DiscoveryConfig)
    (pats : List ((EntityType × EntityType) × List PredicateType))
    (entities : List Entity) (pairs : List (String × String)) : List Discovery :=
  (pairsOf entities).filterMap (fun p =>
    if connected pairs p.1.id p.2.id then none
    else
      let sim := calcEntitySimilarity cfg p.1 p.2
      if qleb cfg.similarityThreshold sim then
        some ⟨p.1.id, p.2.id, suggestPredicate pats p.1 p.2, sim, "similarity_analysis"⟩
      else none)

/-- The per-subject outgoing adjacency built by `_discover_transitive_relationships`. -/
def outgoingOf (rels : List Relationship) (i : String) : List (String × PredicateType) :=
  (rels.filter (fun r => decide (r.subjectId = i))).map (fun r => (r.objectId, r.predicate))

/-- `_infer_transitive_predicate`. -/
def transitiveTable (p1 p2 : PredicateType) : Option PredicateType :=
  match p1, p2 with
  | .belongsTo, .belongsTo => some .belongsTo
  | .dependsOn, .dependsOn => some .dependsOn
  | .derivedFrom, .derivedFrom => some .derivedFrom
  | .contains, .belongsTo => some .contains
  | .hasDefinition, .dependsOn => some .hasDefinition
  | _, _ => none

/-- `_types_compatible_for_transitivity`. -/
def typesCompatible (t1 t2 : EntityType) : Bool :=
  decide ((t1, t2) ∈ compatList ∨ (t2, t1) ∈ compatList)
where
  compatList : List (EntityType × EntityType) :=
    [(.kpi, .metric), (.metric, .table), (.column, .table), (.formula, .kpi)]

/-- `_calculate_transitive_confidence` (the `elif` of the scan is kept). -/
def transitiveConfidence (sq : ℚ → ℚ) (e1 inter e2 : Entity) (rels : List Relationship) : ℚ :=
  let rc := rels.foldl
    (fun (acc : ℚ × ℚ) r =>
      if decide (r.subjectId = e1.id) && decide (r.objectId = inter.id) then
        (qmax acc.1 r.confidence, acc.2)
      else if decide (r.subjectId = inter.id) && decide (r.objectId = e2.id) then
        (acc.1, qmax acc.2 r.confidence)
      else acc)
    (0, 0)
  let base := qmul (sq (qmul rc.1 rc.2)) (Rat.divInt 4 5)
  let boosted := if typesCompatible e1.type e2.type then qmul base (Rat.divInt 11 10) else base
  qmin 1 boosted

/-- Method B, `_discover_transitive_relationships`. -/
def discoverTransitive (sq : ℚ → ℚ) (entities : List Entity) (rels : List Relationship)
    (pairs : List (String × String)) : List Discovery :=
  flatMapL
    (fun e1 =>
      flatMapL
        (fun step1 =>
          (outgoingOf rels step1.1).filterMap (fun step2 =>
            if decide (step2.1 = e1.id) then none
            else if connected pairs e1.id step2.1 then none
            else
              match entityLookup entities step2.1, entityLookup entities step1.1 with
              | some target, some inter =>
                match transitiveTable step1.2 step2.2 with
                | some tp =>
                  some ⟨e1.id, step2.1, tp, transitiveConfidence sq e1 inter target rels,
                    "transitive_inference"⟩
                | none => none
              | _, _ => none))
        (outgoingOf rels e1.id))
    entities

/-- Entities of one type, in input order. -/
def ofType (entities : List Entity) (t : EntityType) : List Entity :=
  entities.filter (fun e => decide (e.type = t))

/-- `_apply_kpi_metric_rules`. -/
def applyKpiMetricRules (cfg : DiscoveryConfig) (kpis metrics : List Entity)
    (pairs : List (String × String)) : List Discovery :=
  flatMapL
    (fun k =>
      metrics.filterMap (fun m =>
        if connected pairs k.id m.id then none
        else
          let sim := calcEntitySimilarity cfg k m
          if qleb (qmul cfg.similarityThreshold (Rat.divInt 7 10)) sim then
            some ⟨k.id, m.id, .dependsOn, qmin (Rat.divInt 9 10) (qmul sim (Rat.divInt 11 10)),
              "domain_rule_kpi_metric"⟩
          else none))
    kpis

/-- `_apply_metric_table_rules`. -/
def applyMetricTableRules (cfg : DiscoveryConfig) (metrics tables : List Entity)
    (pairs : List (String × String)) : List Discovery :=
  flatMapL
    (fun m =>
      tables.filterMap (fun t =>
        if connected pairs m.id t.id then none
        else
          let sim := calcEntitySimilarity cfg m t
          if qleb (qmul cfg.similarityThreshold (Rat.divInt 3 5)) sim then
            some ⟨m.id, t.id, .derivedFrom, qmin (Rat.divInt 17 20) (qmul sim 1),
              "domain_rule_metric_table"⟩
          else none))
    metrics

/-- `_apply_metric_column_rules`. -/
def applyMetricColumnRules (cfg : DiscoveryConfig) (metrics columns : List Entity)
    (pairs : List (String × String)) : List Discovery :=
  flatMapL
    (fun m =>
      columns.filterMap (fun c =>
        if connected pairs m.id c.id then none
        else
          let sim := calcEntitySimilarity cfg m c
          if qleb (qmul cfg.similarityThreshold (Rat.divInt 7 10)) sim then
            some ⟨m.id, c.id, .measures, qmin (Rat.divInt 4 5) (qmul sim 1),
              "domain_rule_metric_column"⟩
          else none))
    metrics

/-- `_apply_formula_rules` (note the swap: the target is the subject). -/
def applyFormulaRules (cfg : DiscoveryConfig) (formulas targets : List Entity)
    (pairs : List (String × String)) : List Discovery :=
  flatMapL
    (fun f =>
      targets.filterMap (fun t =>
        if connected pairs f.id t.id then none
        else
          let sim := calcEntitySimilarity cfg f t
          if qleb (qmul cfg.similarityThreshold (Rat.divInt 3 5)) sim then
            some ⟨t.id, f.id, .calculatedBy, qmin (Rat.divInt 4 5) (qmul sim 1),
              "domain_rule_formula"⟩
          else none))
    formulas

/-- Method C, `_discover_by_domain_rules`. -/
def discoverByDomainRules (cfg : DiscoveryConfig) (entities : List Entity)
    (pairs : List (String × String)) : List Discovery :=
  let kpis := ofType entities .kpi
  let metrics := ofType entities .metric
  let tables := ofType entities .table
  let columns := ofType entities .column
  let formulas := ofType entities .formula
  (if !kpis.isEmpty && !metrics.isEmpty then applyKpiMetricRules cfg kpis metrics pairs else []) ++
    (if !metrics.isEmpty && !tables.isEmpty then applyMetricTableRules cfg metrics tables pairs
      else []) ++
    (if !metrics.isEmpty && !columns.isEmpty then applyMetricColumnRules cfg metrics columns pairs
      else []) ++
    (if !formulas.isEmpty && !kpis.isEmpty then applyFormulaRules cfg formulas kpis pairs
      else []) ++
    (if !formulas.isEmpty && !metrics.isEmpty then applyFormulaRules cfg formulas metrics pairs
      else [])

/-- Method D, `_discover_by_patterns` (ordered pairs of distinct entities). -/
def discoverByPatterns (cfg : DiscoveryConfig)
    (pats : List ((EntityType × EntityType) × List PredicateType))
    (entities : List Entity) (pairs : List (String × String)) : List Discovery :=
  flatMapL
    (fun e1 =>
      entities.filterMap (fun e2 =>
        if decide (e1.id = e2.id) then none
        else if connected pairs e1.id e2.id then none
        else
          match patternsFind pats e1.type e2.type with
          | some ps =>
            if ps.isEmpty then none
            else
              let strength := qmin 1 (qdiv (qnat ps.length) (qnat 10))
              let sim := calcEntitySimilarity cfg e1 e2
              let conf := qadd (qmul strength (Rat.divInt 3 5)) (qmul sim (Rat.divInt 2 5))
              if qleb cfg.similarityThreshold conf then
                some ⟨e1.id, e2.id, ps.headD .dependsOn, conf, "pattern_matching"⟩
              else none
          | none => none))
    entities

/-- The dedup grouping key `(subject, object, predicate)`. -/
def dedupKey (d : Discovery) : String × String × PredicateType :=
  (d.subjectEntityId, d.objectEntityId, d.suggestedPredicate)

/-- Python `max(group, key=confidence)`: first discovery attaining the maximum. -/
def firstMaxDisc : List Discovery → Option Discovery
  | [] => none
  | d :: rest =>
    some (rest.foldl (fun best x => if qltb best.confidence x.confidence then x else best) d)

/-- `_deduplicate_discoveries` (evidence/metadata merging drops out with the
omitted fields). -/
def dedupDiscoveries (ds : List Discovery) : List Discovery :=
  (groupByKey dedupKey ds).foldl
    (fun acc g =>
      match g.2 with
      | [] => acc
      | [d] => acc ++ [d]
      | d1 :: d2 :: rest =>
        match firstMaxDisc (d1 :: d2 :: rest) with
        | some best => acc ++ [best]
        | none => acc)
    []

/-- The descending-confidence comparison of the final `.sort(key=confidence,
reverse=True)`. -/
def confGeb (a b : Discovery) : Bool := qleb b.confidence a.confidence

/-- `ConnectionDiscoverer.discover_connections`. -/
def discoverConnections (sq : ℚ → ℚ) (cfg : DiscoveryConfig) (entities : List Entity)
    (rels : List Relationship) : List Discovery :=
  let pairs := existingPairs rels
  let pats := extractPatterns rels entities
  let a := discoverBySimilarity cfg pats entities pairs
  let b := if cfg.enableTransitiveDiscovery then discoverTransitive sq entities rels pairs else []
  let c := if cfg.enableDomainRules then discoverByDomainRules cfg entities pairs else []
  let d := discoverByPatterns cfg pats entities pairs
  stableSort confGeb (dedupDiscoveries (a ++ b ++ c ++ d))

/-- `run_connection_discovery` (`run_resolution.py`, lines 185-196):
min-confidence filter, then the hard cap. -/
def runConnectionDiscovery (sq : ℚ → ℚ) (cfg : DiscoveryConfig) (entities : List Entity)
    (rels : List Relationship) : List Discovery :=
  let hi := (discoverConnections sq cfg entities rels).filter
    (fun d => qleb cfg.minDiscoveryConfidence d.confidence)
  if cfg.maxDiscoveriesPerRun < hi.length then hi.take cfg.maxDiscoveriesPerRun else hi

/-- `stats.entities_merged` as computed in `run_resolution.py` line 390. -/
def entitiesMergedStat (decs : List EntityDecision) : Nat :=
  decs.foldl (fun a d => a + d.duplicateEntityIds.length) 0

/-! ### Concrete inputs used by closed theorems -/

/-- Concrete instantiation of the abstract square root for closed theorems in
which transitive inference contributes no proposal (its value is then never
used by any inspected output). -/
def sqrtZero : ℚ → ℚ := fun _ => 0

/-- `{e1: "ac"/KPI conf 0.5}` — clusters with `entB` by identical name. -/
def entA : Entity := ⟨"e1", .kpi, "ac", none, Rat.divInt 1 2, [], none⟩

/-- `{e2: "ac"/KPI conf 0.4}`. -/
def entB : Entity := ⟨"e2", .kpi, "ac", none, Rat.divInt 2 5, [], none⟩

/-- `{m: "ax cx"/KPI}` — multi-word with acronym `AC`. -/
def entM : Entity := ⟨"m", .kpi, "ax cx", none, Rat.divInt 1 2, [], none⟩

/-- `{m2: "ay cy"/KPI}` — a second multi-word with acronym `AC`. -/
def entM2 : Entity := ⟨"m2", .kpi, "ay cy", none, Rat.divInt 1 2, [], none⟩

/-- `{s: "ac"/KPI}` — single-word matching the acronym `AC`. -/
def entS : Entity := ⟨"s", .kpi, "ac", none, Rat.divInt 1 2, [], none⟩

/-- `{d1: "ab"/Domain conf 0.5}`. -/
def entD1 : Entity := ⟨"d1", .domain, "ab", none, Rat.divInt 1 2, [], none⟩

/-- `{d2: "ab cd"/Domain conf 0.9}`. -/
def entD2 : Entity := ⟨"d2", .domain, "ab cd", none, Rat.divInt 9 10, [], none⟩

/-- `{d3: "cd"/Domain conf 0.5}`. -/
def entD3 : Entity := ⟨"d3", .domain, "cd", none, Rat.divInt 1 2, [], none⟩

/-- Duplicate-id input, first occurrence. -/
def entX1 : Entity := ⟨"x", .domain, "aa", none, Rat.divInt 1 2, [], none⟩

/-- Duplicate-id input, second occurrence (same id `x`, different name). -/
def entX2 : Entity := ⟨"x", .domain, "bb", none, Rat.divInt 1 2, [], none⟩

/-- Medoid tie-break input: id `b`, listed first. -/
def entN1 : Entity := ⟨"b", .kpi, "nn", none, Rat.divInt 1 2, [], none⟩

/-- Medoid tie-break input: id `a` (lexicographically smaller), listed second,
same name and confidence as `entN1`. -/
def entN2 : Entity := ⟨"a", .kpi, "nn", none, Rat.divInt 1 2, [], none⟩

/-- `{f1: "ab"/KPI}` — its cleaned name is a strict substring of `entF2`'s. -/
def entF1 : Entity := ⟨"f1", .kpi, "ab", none, Rat.divInt 1 2, [], none⟩

/-- `{f2: "ab cd"/KPI}`. -/
def entF2 : Entity := ⟨"f2", .kpi, "ab cd", none, Rat.divInt 1 2, [], none⟩

/-- Twin entity (same name, description, attributes, type as `entT2`). -/
def entT1 : Entity := ⟨"c1", .kpi, "x", some "d", Rat.divInt 1 2, [("a", "v")], none⟩

/-- Twin entity of `entT1` with a different id. -/
def entT2 : Entity := ⟨"c2", .kpi, "x", some "d", Rat.divInt 1 2, [("a", "v")], none⟩

/-- `{b: "foo"/Domain}` — listed before `entP2` but with the larger id. -/
def entP1 : Entity := ⟨"b", .domain, "foo", none, Rat.divInt 1 2, [], none⟩

/-- `{a: "bar"/Domain}`. -/
def entP2 : Entity := ⟨"a", .domain, "bar", none, Rat.divInt 1 2, [], none⟩

/-- `{c: "foo bar"/Domain}` — similar to both `entP1` and `entP2`. -/
def entP3 : Entity := ⟨"c", .domain, "foo bar", none, Rat.divInt 1 2, [], none⟩

/-- Scenario-3 relationship `r1 : e2 -dependsOn-> m1`, confidence 0.8, context `A`. -/
def relR1 : Relationship := ⟨"r1", "e2", .dependsOn, "m1", Rat.divInt 4 5, some "A", none⟩

/-- Scenario-3 relationship `r2 : e1 -dependsOn-> m1`, confidence 0.6, context `B`. -/
def relR2 : Relationship := ⟨"r2", "e1", .dependsOn, "m1", Rat.divInt 3 5, some "B", none⟩

/-- A relationship whose endpoints reference no existing entity and whose
confidence 1.5 is out of range. -/
def relDangling : Relationship := ⟨"rz", "zz", .contains, "ww", Rat.divInt 3 2, none, none⟩

/-! ### Claim C10: the endpoint rewrite is a frame-preserving map -/

theorem foldl_append_eq_map {α β : Type} (f : α → β) (l : List α) :
    ∀ init : List β, l.foldl (fun acc r => acc ++ [f r]) init = init ++ l.map f := by
  induction l with
  | nil => intro init; simp
  | cons x xs ih =>
    intro init
    rw [List.foldl_cons, ih, List.map_cons]
    simp

theorem updateRel_eq_map (rels : List Relationship) (m : List (String × String)) :
    updateRelationshipEntityIds rels m = rels.map (rewriteRel m) := by
  rw [updateRelationshipEntityIds, foldl_append_eq_map]
  simp

theorem rewriteRel_frame (m : List (String × String)) (r : Relationship) :
    (rewriteRel m r).id = r.id ∧ (rewriteRel m r).predicate = r.predicate ∧
      (rewriteRel m r).confidence = r.confidence ∧ (rewriteRel m r).context = r.context ∧
      (rewriteRel m r).sourceChunkId = r.sourceChunkId := by
  rw [rewriteRel]
  split <;> exact ⟨rfl, rfl, rfl, rfl, rfl⟩

/-- C10: for every relationship list and every entity-id mapping, the
endpoint-rewrite step changes at most `subject_id` and `object_id`: the
output has the same length and order, and every element keeps its `id`,
`predicate`, `confidence`, `context` and `source_chunk_id`. -/
theorem c10_endpoint_rewrite_frame (rels : List Relationship) (m : List (String × String)) :
    (updateRelationshipEntityIds rels m).length = rels.length ∧
      (updateRelationshipEntityIds rels m).map Relationship.id = rels.map Relationship.id ∧
      (updateRelationshipEntityIds rels m).map Relationship.predicate =
        rels.map Relationship.predicate ∧
      (updateRelationshipEntityIds rels m).map Relationship.confidence =
        rels.map Relationship.confidence ∧
      (updateRelationshipEntityIds rels m).map Relationship.context =
        rels.map Relationship.context ∧
      (updateRelationshipEntityIds rels m).map Relationship.sourceChunkId =
        rels.map Relationship.sourceChunkId := by
  rw [updateRel_eq_map]
  refine ⟨by simp, ?_, ?_, ?_, ?_, ?_⟩ <;>
    · rw [List.map_map]
      refine List.map_congr_left ?_
      intro r _
      have h := rewriteRel_frame m r
      simp only [Function.comp_apply]
      tauto

/-! ### Claim C3: end-to-end scenario 3 (rewrite + fusion) -/

/-- C3 counterexample: on scenario 3's input, the single surviving edge keeps
only context `A` (not `A | B`) and the single recorded decision's action is
`keep_canonical` (not `consolidate`): both edges collide in the
exact-duplicate-removal step, which does not merge contexts. -/
theorem c3_scenario_counterexample :
    ¬ (((resolveRelationships .maxConf [relR1, relR2] [("e2", "e1")]).1.map
          Relationship.context = [some "A | B"]) ∧
        ((resolveRelationships .maxConf [relR1, relR2] [("e2", "e1")]).2.map
          RelationshipDecision.action = [.consolidateRelationships])) := by
  decide

/-- C3 (amended): on scenario 3's input, relationship resolution returns
exactly one edge `e1 -dependsOn-> m1` with confidence `0.8` and context `"A"`
(rewritten `r1`), and records exactly one decision, a `keep_canonical`
decision of the exact-duplicate-removal step merging `r2`. -/
theorem c3_scenario_amended :
    resolveRelationships .maxConf [relR1, relR2] [("e2", "e1")] =
      ([⟨"r1", "e1", .dependsOn, "m1", Rat.divInt 4 5, some "A", none⟩],
        [⟨.keepCanonical, "r1", ["r2"], Rat.divInt 4 5, "exact_duplicate_removal"⟩]) := by
  decide

/-! ### Claim C4: Method A's composite score exceeds 1 -/

/-- C4: code bug.  On two same-type entities with identical name, description
and attributes, Method A's composite score is
`(1*0.6 + 1*0.4 + 1*0.2) * 1.0 = 1.2 > 1`; it passes the discovery threshold
`0.6` and is assigned as the proposal's confidence, although the
`ConnectionDiscovery` model declares `confidence` with `le=1.0` (pydantic
aborts the run at this input). -/
theorem c4_composite_exceeds_bound :
    calcEntitySimilarity defaultConfig entT1 entT2 = Rat.divInt 6 5 ∧
      (1 : ℚ) < Rat.divInt 6 5 ∧
      defaultConfig.similarityThreshold ≤ Rat.divInt 6 5 ∧
      (discoverConnections sqrtZero defaultConfig [entT1, entT2] []).map Discovery.confidence =
        [Rat.divInt 6 5] := by
  refine ⟨by decide, ?_, by decide, by decide⟩
  rw [show (Rat.divInt 6 5 : ℚ) = 6 / 5 from Rat.divInt_eq_div 6 5]
  norm_num

/-! ### Claim C7: resolve performs no input validation -/

/-- C7 counterexample: an input with a duplicate entity id, a relationship
referencing missing entity ids, and an out-of-range confidence is processed
to a complete result with no validation failure — the duplicate id is
silently collapsed by the id-keyed canonical dictionary (last write wins,
`entX1` is lost without any decision), and the defective relationship passes
through unchanged. -/
theorem c7_no_validation_counterexample :
    resolveEntities 80 98 true [entX1, entX2] = ([entX2], []) ∧
      resolveRelationships .maxConf [relDangling] [] = ([relDangling], []) := by
  decide

/-- C7 (amended): the resolution core validates nothing.  A duplicate entity
id yields a complete entity-resolution result in which the later entity has
overwritten the earlier one in the canonical dict (no error, no decision),
and relationship resolution returns a complete result on relationships whose
endpoints reference no entity and whose confidence is outside `[0,1]`.
Unknown types and predicates are unrepresentable in the closed enums
(rejected at model construction, before `resolve` runs). -/
theorem c7_no_validation_amended :
    (resolveEntities 80 98 true [entX1, entX2]).1.length = 1 ∧
      entX1 ∉ (resolveEntities 80 98 true [entX1, entX2]).1 ∧
      (resolveEntities 80 98 true [entX1, entX2]).2 = [] ∧
      resolveRelationships .maxConf [relDangling, relR1] [] = ([relDangling, relR1], []) := by
  decide

/-! ### Claim C5: final discovery ordering -/

theorem mem_stableInsert {α : Type} (le : α → α → Bool) (x : α) (l : List α) (z : α) :
    z ∈ stableInsert le x l ↔ z = x ∨ z ∈ l := by
  induction l with
  | nil => simp [stableInsert]
  | cons y ys ih =>
    rw [stableInsert]
    split
    · simp [List.mem_cons]
    · rw [List.mem_cons, ih]
      simp [List.mem_cons]
      tauto

theorem pairwise_stableInsert {α : Type} (le : α → α → Bool)
    (htot : ∀ a b, le a b = true ∨ le b a = true)
    (htrans : ∀ a b c, le a b = true → le b c = true → le a c = true)
    (x : α) (l : List α) (h : l.Pairwise (fun a b => le a b = true)) :
    (stableInsert le x l).Pairwise (fun a b => le a b = true) := by
  induction l with
  | nil => simp [stableInsert]
  | cons y ys ih =>
    rw [stableInsert]
    rcases List.pairwise_cons.mp h with ⟨hy, hys⟩
    split
    · rename_i hxy
      refine List.pairwise_cons.mpr ⟨?_, h⟩
      intro z hz
      rcases List.mem_cons.mp hz with rfl | hz2
      · exact hxy
      · exact htrans x y z hxy (hy z hz2)
    · rename_i hxy
      refine List.pairwise_cons.mpr ⟨?_, ih hys⟩
      intro z hz
      rcases (mem_stableInsert le x ys z).mp hz with rfl | hz2
      · rcases htot z y with h1 | h1
        · exact absurd h1 hxy
        · exact h1
      · exact hy z hz2

theorem pairwise_stableSort {α : Type} (le : α → α → Bool)
    (htot : ∀ a b, le a b = true ∨ le b a = true)
    (htrans : ∀ a b c, le a b = true → le b c = true → le a c = true)
    (l : List α) : (stableSort le l).Pairwise (fun a b => le a b = true) := by
  induction l with
  | nil => simp [stableSort]
  | cons x xs ih => exact pairwise_stableInsert le htot htrans x (stableSort le xs) ih

theorem confGeb_total (a b : Discovery) : confGeb a b = true ∨ confGeb b a = true := by
  rw [confGeb, confGeb, qleb_iff, qleb_iff]
  exact (le_total b.confidence a.confidence).imp id id

theorem confGeb_trans (a b c : Discovery) :
    confGeb a b = true → confGeb b c = true → confGeb a c = true := by
  rw [confGeb, confGeb, confGeb, qleb_iff, qleb_iff, qleb_iff]
  intro h1 h2
  exact le_trans h2 h1

/-- C5 (amended): for every input (and every interpretation of the square
root), the final discovery list of `run_connection_discovery` is sorted by
confidence descending — Python's stable sort uses the confidence alone, so
equal-confidence proposals keep their emission order rather than being
ordered by `(subject_id, object_id, predicate)` — and its length is at most
`max_discoveries_per_run`. -/
theorem c5_sorted_amended (sq : ℚ → ℚ) (cfg : DiscoveryConfig) (entities : List Entity)
    (rels : List Relationship) :
    (runConnectionDiscovery sq cfg entities rels).Pairwise
        (fun a b => b.confidence ≤ a.confidence) ∧
      (runConnectionDiscovery sq cfg entities rels).length ≤ cfg.maxDiscoveriesPerRun := by
  obtain ⟨x, hX⟩ : ∃ x, discoverConnections sq cfg entities rels = stableSort confGeb x :=
    ⟨_, rfl⟩
  have hs : (discoverConnections sq cfg entities rels).Pairwise
      (fun a b => b.confidence ≤ a.confidence) := by
    rw [hX]
    exact (pairwise_stableSort confGeb confGeb_total confGeb_trans x).imp
      (fun h => (qleb_iff _ _).mp h)
  have hf : ((discoverConnections sq cfg entities rels).filter
      (fun d => qleb cfg.minDiscoveryConfidence d.confidence)).Pairwise
      (fun a b => b.confidence ≤ a.confidence) := List.Pairwise.filter _ hs
  rw [runConnectionDiscovery]
  split
  · constructor
    · exact List.Pairwise.sublist (List.take_sublist _ _) hf
    · rw [List.length_take]
      omega
  · rename_i hlen
    exact ⟨hf, by omega⟩

/-- C5 counterexample: a run producing two equal-confidence proposals whose
final order has subject id `b` before subject id `a`: the claimed sort key
`(confidence desc, subject_id, object_id, predicate)` would demand `a`
first.  The source sorts by confidence only. -/
theorem c5_tie_order_counterexample :
    runConnectionDiscovery sqrtZero defaultConfig [entP1, entP2, entP3] [] =
        [⟨"b", "c", .dependsOn, Rat.divInt 3 5, "similarity_analysis"⟩,
          ⟨"a", "c", .dependsOn, Rat.divInt 3 5, "similarity_analysis"⟩] ∧
      strLt "a" "b" = true := by
  decide

/-! ### Claim C8: medoid election -/

theorem pyMaxConf_spec (rest : List Entity) : ∀ (cur m : Entity),
    m = rest.foldl (fun best x => if qltb best.confidence x.confidence then x else best) cur →
    (∃ pre post, cur :: rest = pre ++ m :: post ∧
        ∀ x ∈ pre, x.confidence < m.confidence) ∧
      cur.confidence ≤ m.confidence ∧ ∀ x ∈ rest, x.confidence ≤ m.confidence := by
  induction rest with
  | nil =>
    intro cur m hm
    rw [List.foldl_nil] at hm
    subst hm
    exact ⟨⟨[], [], rfl, by simp⟩, le_refl _, by simp⟩
  | cons y ys ih =>
    intro cur m hm
    rw [List.foldl_cons] at hm
    by_cases hxy : qltb cur.confidence y.confidence = true
    · rw [if_pos hxy] at hm
      have hlt : cur.confidence < y.confidence := (qltb_iff _ _).mp hxy
      obtain ⟨⟨pre, post, hdec, hpre⟩, hy, hys⟩ := ih y m hm
      refine ⟨⟨cur :: pre, post, by rw [List.cons_append, hdec], ?_⟩,
        le_of_lt (lt_of_lt_of_le hlt hy), ?_⟩
      · intro x hx
        rcases List.mem_cons.mp hx with rfl | hx2
        · exact lt_of_lt_of_le hlt hy
        · exact hpre x hx2
      · intro x hx
        rcases List.mem_cons.mp hx with rfl | hx2
        · exact hy
        · exact hys x hx2
    · rw [if_neg hxy] at hm
      have hle : y.confidence ≤ cur.confidence := by
        by_contra hc
        exact hxy ((qltb_iff _ _).mpr (not_le.mp hc))
      obtain ⟨⟨pre, post, hdec, hpre⟩, hcur, hys⟩ := ih cur m hm
      cases pre with
      | nil =>
        rw [List.nil_append] at hdec
        have hmc := (List.cons.injEq _ _ _ _).mp hdec
        refine ⟨⟨[], y :: post, ?_, by simp⟩, hcur, ?_⟩
        · rw [List.nil_append, hmc.1, hmc.2]
        · intro x hx
          rcases List.mem_cons.mp hx with rfl | hx2
          · rw [← hmc.1]; exact hle
          · exact hys x hx2
      | cons p ps =>
        rw [List.cons_append] at hdec
        have hmc := (List.cons.injEq _ _ _ _).mp hdec
        have hcurlt : cur.confidence < m.confidence := by
          rw [hmc.1]
          exact hpre p (List.mem_cons_self p ps)
        refine ⟨⟨cur :: y :: ps, post, ?_, ?_⟩, hcur, ?_⟩
        · rw [List.cons_append, List.cons_append, hmc.2]
        · intro x hx
          rcases List.mem_cons.mp hx with rfl | hx2
          · exact hcurlt
          rcases List.mem_cons.mp hx2 with rfl | hx3
          · exact lt_of_le_of_lt hle hcurlt
          · exact hpre x (List.mem_cons_of_mem p hx3)
        · intro x hx
          rcases List.mem_cons.mp hx with rfl | hx2
          · exact hle.trans hcur
          · exact hys x hx2

theorem firstMaxConf_spec (es : List Entity) (h : es ≠ []) :
    ∃ m, firstMaxConf es = some m ∧
      (∃ pre post, es = pre ++ m :: post ∧ ∀ x ∈ pre, x.confidence < m.confidence) ∧
      ∀ x ∈ es, x.confidence ≤ m.confidence := by
  cases es with
  | nil => exact absurd rfl h
  | cons cur rest =>
    obtain ⟨⟨pre, post, hdec, hpre⟩, hcur, hrest⟩ := pyMaxConf_spec rest cur _ rfl
    refine ⟨_, rfl, ⟨pre, post, hdec, hpre⟩, ?_⟩
    intro x hx
    rcases List.mem_cons.mp hx with rfl | hx2
    · exact hcur
    · exact hrest x hx2

theorem foldl_pick_mem {α : Type} (p : α → α → Bool) (rest : List α) :
    ∀ cur : α, (rest.foldl (fun best x => if p best x then x else best) cur) = cur ∨
      (rest.foldl (fun best x => if p best x then x else best) cur) ∈ rest := by
  induction rest with
  | nil => intro cur; exact Or.inl rfl
  | cons y ys ih =>
    intro cur
    rw [List.foldl_cons]
    by_cases hp : p cur y = true
    · rw [if_pos hp]
      rcases ih y with h | h
      · exact Or.inr (by rw [h]; exact List.mem_cons_self y ys)
      · exact Or.inr (List.mem_cons_of_mem y h)
    · rw [if_neg hp]
      rcases ih cur with h | h
      · exact Or.inl h
      · exact Or.inr (List.mem_cons_of_mem y h)

theorem firstMaxScore_mem (l : List (Entity × ℚ)) (p : Entity × ℚ)
    (h : firstMaxScore l = some p) : p ∈ l := by
  cases l with
  | nil => simp [firstMaxScore] at h
  | cons q rest =>
    rw [firstMaxScore, Option.some.injEq] at h
    rcases foldl_pick_mem (fun best x => qltb best.2 x.2) rest q with h2 | h2
    · rw [← h, h2]; exact List.mem_cons_self q rest
    · rw [← h]; exact List.mem_cons_of_mem q h2

theorem medoidCandidates_self_mem (es : List Entity) (best : Entity × ℚ)
    (hfs : firstMaxScore (scoredEntities es) = some best) : best.1 ∈ medoidCandidates es := by
  rw [medoidCandidates, hfs]
  refine List.mem_map.mpr ⟨best, ?_, rfl⟩
  rw [List.mem_filter]
  refine ⟨firstMaxScore_mem _ _ hfs, ?_⟩
  have h0 : qsub best.2 best.2 = 0 := by rw [qsub_eq]; ring
  rw [h0, qltb_iff]
  have : qabs 0 = (0 : ℚ) := by rw [qabs_eq]; simp
  rw [this]
  norm_num

/-- C8 (amended): for every nonempty cluster, the elected medoid is a member
of the within-10-points candidate set, has maximal confidence among the
candidates, and is the *earliest-listed* candidate attaining that confidence
— remaining ties are broken by position in the cluster (Python `max` keeps
the first maximum), not by lexicographic order of entity id. -/
theorem c8_medoid_amended (es : List Entity) (h : es ≠ []) :
    ∃ m, selectMedoid es = some m ∧ m ∈ medoidCandidates es ∧
      (∀ c ∈ medoidCandidates es, c.confidence ≤ m.confidence) ∧
      ∃ pre post, medoidCandidates es = pre ++ m :: post ∧
        ∀ c ∈ pre, c.confidence < m.confidence := by
  match es with
  | [] => exact absurd rfl h
  | [e] =>
    have hc : medoidCandidates [e] = [e] := by
      simp only [medoidCandidates, scoredEntities, firstMaxScore, medoidScore]
      norm_num [qsub, qadd, qneg, qabs, qleb, qltb]
    refine ⟨e, rfl, by rw [hc]; exact List.mem_singleton_self e, ?_, [], [],
      by rw [hc]; rfl, by simp⟩
    intro c hcmem
    rw [hc, List.mem_singleton] at hcmem
    rw [hcmem]
  | e1 :: e2 :: rest =>
    obtain ⟨best, hfs⟩ : ∃ p, firstMaxScore (scoredEntities (e1 :: e2 :: rest)) = some p := by
      have hne : scoredEntities (e1 :: e2 :: rest) ≠ [] := by
        simp [scoredEntities]
      cases hsc : scoredEntities (e1 :: e2 :: rest) with
      | nil => exact absurd hsc hne
      | cons q qs => exact ⟨_, by rw [firstMaxScore]⟩
    have hbm : best.1 ∈ medoidCandidates (e1 :: e2 :: rest) :=
      medoidCandidates_self_mem _ best hfs
    simp only [selectMedoid, hfs]
    by_cases hlen : 1 < (medoidCandidates (e1 :: e2 :: rest)).length
    · rw [if_pos hlen]
      have hne : medoidCandidates (e1 :: e2 :: rest) ≠ [] := by
        intro hc
        rw [hc] at hlen
        simp at hlen
      obtain ⟨m, hm, hdec, hmax⟩ := firstMaxConf_spec _ hne
      refine ⟨m, ?_, ?_, hmax, hdec⟩
      · rw [hm]
      · obtain ⟨pre, post, hd, _⟩ := hdec
        rw [hd]
        exact List.mem_append.mpr (Or.inr (List.mem_cons_self m post))
    · rw [if_neg hlen]
      have hsingle : medoidCandidates (e1 :: e2 :: rest) = [best.1] := by
        rcases hc : medoidCandidates (e1 :: e2 :: rest) with _ | ⟨c, cs⟩
        · rw [hc] at hbm; simp at hbm
        · rcases cs with _ | ⟨c2, cs2⟩
          · rw [hc] at hbm
            rw [List.mem_singleton] at hbm
            rw [hbm]
          · rw [hc] at hlen
            simp at hlen
      refine ⟨best.1, rfl, by rw [hsingle]; exact List.mem_singleton_self _, ?_, [], [],
        by rw [hsingle]; rfl, by simp⟩
      intro c hcmem
      rw [hsingle, List.mem_singleton] at hcmem
      rw [hcmem]

/-- C8 witness: the amended characterisation at a concrete two-member cluster. -/
theorem c8_medoid_amended_witness :
    ([entN1, entN2] : List Entity) ≠ [] ∧
      (∃ m, selectMedoid [entN1, entN2] = some m ∧ m ∈ medoidCandidates [entN1, entN2] ∧
        (∀ c ∈ medoidCandidates [entN1, entN2], c.confidence ≤ m.confidence) ∧
        ∃ pre post, medoidCandidates [entN1, entN2] = pre ++ m :: post ∧
          ∀ c ∈ pre, c.confidence < m.confidence) :=
  ⟨by decide, c8_medoid_amended [entN1, entN2] (by decide)⟩

/-- C8 counterexample: a cluster of two members with identical name, equal
scores and equal confidence, where the member with the lexicographically
*larger* id (`b`) is listed first and gets elected — the claimed
id-lexicographic tie-break would elect `a`. -/
theorem c8_tiebreak_counterexample :
    selectMedoid [entN1, entN2] = some entN1 ∧ entN1.id = "b" ∧ entN2.id = "a" ∧
      strLt entN2.id entN1.id = true ∧ entN1.confidence = entN2.confidence ∧
      medoidCandidates [entN1, entN2] = [entN1, entN2] := by
  decide

/-! ### Claim C9: clustering at threshold 100 -/

theorem foldl_qmax_le_elim (l : List ℚ) : ∀ b c : ℚ, c ≤ l.foldl qmax b →
    c ≤ b ∨ ∃ a ∈ l, c ≤ a := by
  induction l with
  | nil => intro b c h; exact Or.inl (by simpa using h)
  | cons x xs ih =>
    intro b c h
    rw [List.foldl_cons] at h
    rcases ih _ _ h with h0 | ⟨a, ha, hle⟩
    · rw [qmax_eq] at h0
      rcases le_max_iff.mp h0 with h1 | h1
      · exact Or.inl h1
      · exact Or.inr ⟨x, List.mem_cons_self x xs, h1⟩
    · exact Or.inr ⟨a, List.mem_cons_of_mem x ha, hle⟩

theorem ratioL_window_100 (s u : List Char) (hlen : u.length = s.length) (hs : s ≠ []) :
    100 ≤ ratioL s u ↔ s = u := by
  have hpos : 0 < s.length := List.length_pos.mpr hs
  have hsum : s.length + u.length ≠ 0 := by omega
  constructor
  · intro h
    rw [ratioL, if_neg hsum, Rat.divInt_eq_div] at h
    have hqpos : (0 : ℚ) < ((s.length : ℚ) + (u.length : ℚ)) := by
      have : (0 : Int) < (s.length : Int) + (u.length : Int) := by omega
      exact_mod_cast this
    rw [le_div_iff₀ (by exact_mod_cast hqpos)] at h
    have hcast : (100 : Int) * ((s.length : Int) + (u.length : Int)) ≤
        200 * (lcs s u : Int) := by exact_mod_cast h
    have hle1 : lcs s u ≤ s.length := lcs_le_left s u
    have heq : lcs s u = s.length := by omega
    exact List.Sublist.eq_of_length (sublist_of_lcs_eq_length u s heq) (by omega)
  · intro he
    subst he
    rw [ratioL_self]

theorem partRatioGo_100_iff (s t : List Char) (hs : s ≠ []) (hst : s.length ≤ t.length) :
    100 ≤ partRatioGo s t ↔ s.IsInfix t := by
  have hlen0 : s.length ≠ 0 := by
    intro hc
    exact hs (List.eq_nil_of_length_eq_zero hc)
  rw [partRatioGo, if_neg hlen0]
  constructor
  · intro h
    rcases foldl_qmax_le_elim _ _ _ h with h0 | ⟨a, ha, hle⟩
    · norm_num at h0
    · rcases List.mem_map.mp ha with ⟨u, hu, rfl⟩
      rcases (mem_windowsOf _ _ _).mp hu with ⟨hlen, hinf⟩
      have heq := (ratioL_window_100 s u hlen hs).mp hle
      rw [heq]
      exact hinf
  · intro hinf
    have hu : s ∈ windowsOf s.length t := (mem_windowsOf _ _ _).mpr ⟨rfl, hinf⟩
    calc (100 : ℚ) = ratioL s s := (ratioL_self s).symm
      _ ≤ _ := le_foldl_qmax _ _ _ (List.mem_map_of_mem _ hu)

theorem partRatioL_100_iff (x y : List Char) (hx : x ≠ []) (hy : y ≠ []) :
    100 ≤ partRatioL x y ↔ x.IsInfix y ∨ y.IsInfix x := by
  rw [partRatioL]
  by_cases h : x.length ≤ y.length
  · rw [if_pos h, partRatioGo_100_iff x y hx h]
    constructor
    · exact Or.inl
    · rintro (h1 | h1)
      · exact h1
      · have h2 : y.length ≤ x.length := h1.sublist.length_le
        have h3 : y = x := h1.sublist.eq_of_length (by omega)
        rw [h3]
  · rw [if_neg h, partRatioGo_100_iff y x hy (le_of_not_le h)]
    constructor
    · exact Or.inr
    · rintro (h1 | h1)
      · have h2 : x.length ≤ y.length := h1.sublist.length_le
        omega
      · exact h1

/-- C9 (amended): at `τ_sim = 100`, the pairwise clustering test used by
`_group_entities_by_fuzzy_match` passes for two same-type entities iff one
cleaned name is a contiguous substring of the other (equal cleaned names
included) — so a name that is a strict substring of another *does* cluster
with it, contrary to the claim's "only exact matches cluster". -/
theorem c9_boundary_amended (e1 e2 : Entity) (htype : e1.type = e2.type)
    (h1 : (cleanName e1.name).data ≠ []) (h2 : (cleanName e2.name).data ≠ []) :
    similarityTest 100 e1.name e2.name = true ↔
      (cleanName e1.name).data.IsInfix (cleanName e2.name).data ∨
        (cleanName e2.name).data.IsInfix (cleanName e1.name).data := by
  rw [similarityTest, qleb_iff, partRatio]
  exact partRatioL_100_iff _ _ h1 h2

/-- C9 witness: the amended iff at two concrete same-type entities whose
cleaned names `ab` and `ab cd` are in the strict-substring relation. -/
theorem c9_boundary_amended_witness :
    entF1.type = entF2.type ∧ (cleanName entF1.name).data ≠ [] ∧
      (cleanName entF2.name).data ≠ [] ∧
      (similarityTest 100 entF1.name entF2.name = true ↔
        (cleanName entF1.name).data.IsInfix (cleanName entF2.name).data ∨
          (cleanName entF2.name).data.IsInfix (cleanName entF1.name).data) :=
  ⟨by decide, by decide, by decide,
    c9_boundary_amended entF1 entF2 (by decide) (by decide) (by decide)⟩

/-- C9 counterexample: at `τ_sim = 100` the entities named `ab` and `ab cd`
(distinct cleaned names, one a strict substring of the other) end up in the
same cluster and are merged to a single canonical entity. -/
theorem c9_boundary_counterexample :
    cleanName entF1.name ≠ cleanName entF2.name ∧
      (resolveEntities 100 98 true [entF1, entF2]).1.length = 1 := by
  decide

/-! ### Dictionary and grouping lemmas -/

/-- All grouped values, in group order. -/
def gvals {κ α : Type} (acc : List (κ × List α)) : List α := (acc.map Prod.snd).flatten

theorem gvals_nil {κ α : Type} : gvals ([] : List (κ × List α)) = [] := rfl

theorem gvals_cons {κ α : Type} (g : κ × List α) (rest : List (κ × List α)) :
    gvals (g :: rest) = g.2 ++ gvals rest := rfl

theorem gvals_append {κ α : Type} (l1 l2 : List (κ × List α)) :
    gvals (l1 ++ l2) = gvals l1 ++ gvals l2 := by
  rw [gvals, gvals, gvals, List.map_append, List.flatten_append]

theorem gvals_upsert {κ α : Type} [DecidableEq κ] (k : κ) (v : α) (acc : List (κ × List α)) :
    (gvals (upsert k v acc)).Perm (gvals acc ++ [v]) := by
  induction acc with
  | nil => rfl
  | cons g rest ih =>
    rcases g with ⟨k1, vs⟩
    rw [upsert]
    split
    · show ((vs ++ [v]) ++ gvals rest).Perm ((vs ++ gvals rest) ++ [v])
      rw [List.append_assoc, List.append_assoc]
      exact List.Perm.append_left vs List.perm_append_comm
    · show (vs ++ gvals (upsert k v rest)).Perm ((vs ++ gvals rest) ++ [v])
      rw [List.append_assoc]
      exact List.Perm.append_left vs ih

theorem gvals_groupByKey_aux {κ α : Type} [DecidableEq κ] (key : α → κ) (l : List α) :
    ∀ acc : List (κ × List α),
      (gvals (l.foldl (fun acc x => upsert (key x) x acc) acc)).Perm (gvals acc ++ l) := by
  induction l with
  | nil => intro acc; simp
  | cons x xs ih =>
    intro acc
    rw [List.foldl_cons]
    refine (ih (upsert (key x) x acc)).trans ?_
    refine ((gvals_upsert (key x) x acc).append_right xs).trans ?_
    rw [List.append_assoc]
    rfl

theorem gvals_groupByKey {κ α : Type} [DecidableEq κ] (key : α → κ) (l : List α) :
    (gvals (groupByKey key l)).Perm l := gvals_groupByKey_aux key l []

theorem keys_upsert {κ α : Type} [DecidableEq κ] (k : κ) (v : α) (acc : List (κ × List α)) :
    (upsert k v acc).map Prod.fst =
      if k ∈ acc.map Prod.fst then acc.map Prod.fst else acc.map Prod.fst ++ [k] := by
  induction acc with
  | nil => simp [upsert]
  | cons g rest ih =>
    rcases g with ⟨k1, vs⟩
    rw [upsert]
    split
    · rename_i hk
      subst hk
      simp
    · rename_i hk
      simp only [List.map_cons, ih]
      by_cases hmem : k ∈ rest.map Prod.fst
      · rw [if_pos hmem, if_pos (List.mem_cons_of_mem _ hmem)]
      · rw [if_neg hmem, if_neg ?_, List.cons_append]
        rw [List.mem_cons]
        rintro (hc | hc)
        · exact hk hc.symm
        · exact hmem hc

theorem nodup_keys_groupByKey_aux {κ α : Type} [DecidableEq κ] (key : α → κ) (l : List α) :
    ∀ acc : List (κ × List α), (acc.map Prod.fst).Nodup →
      ((l.foldl (fun acc x => upsert (key x) x acc) acc).map Prod.fst).Nodup := by
  induction l with
  | nil => intro acc h; simpa using h
  | cons x xs ih =>
    intro acc h
    rw [List.foldl_cons]
    refine ih _ ?_
    rw [keys_upsert]
    split
    · exact h
    · rename_i hmem
      rw [List.nodup_append]
      refine ⟨h, List.nodup_singleton _, ?_⟩
      intro a ha hb
      rw [List.mem_singleton] at hb
      subst hb
      exact hmem ha

theorem nodup_keys_groupByKey {κ α : Type} [DecidableEq κ] (key : α → κ) (l : List α) :
    ((groupByKey key l).map Prod.fst).Nodup := nodup_keys_groupByKey_aux key l [] (by simp)

theorem mem_upsert {κ α : Type} [DecidableEq κ] (k : κ) (v : α) (acc : List (κ × List α))
    (g : κ × List α) (hg : g ∈ upsert k v acc) :
    g ∈ acc ∨ (g.1 = k ∧ ∃ vs, g.2 = vs ++ [v] ∧ ((k, vs) ∈ acc ∨ vs = [])) := by
  induction acc with
  | nil =>
    rw [upsert, List.mem_singleton] at hg
    subst hg
    exact Or.inr ⟨rfl, [], rfl, Or.inr rfl⟩
  | cons g1 rest ih =>
    rcases g1 with ⟨k1, vs1⟩
    rw [upsert] at hg
    split at hg
    · rename_i hk
      rcases List.mem_cons.mp hg with rfl | h2
      · exact Or.inr ⟨hk, vs1, rfl, Or.inl (by rw [← hk]; exact List.mem_cons_self _ _)⟩
      · exact Or.inl (List.mem_cons_of_mem _ h2)
    · rcases List.mem_cons.mp hg with rfl | h2
      · exact Or.inl (List.mem_cons_self _ _)
      · rcases ih h2 with h3 | ⟨hk, vs, hvs, horig⟩
        · exact Or.inl (List.mem_cons_of_mem _ h3)
        · refine Or.inr ⟨hk, vs, hvs, ?_⟩
          rcases horig with h4 | h4
          · exact Or.inl (List.mem_cons_of_mem _ h4)
          · exact Or.inr h4

theorem groupByKey_members_aux {κ α : Type} [DecidableEq κ] (key : α → κ) (l : List α) :
    ∀ acc : List (κ × List α),
      (∀ g ∈ acc, g.2 ≠ [] ∧ ∀ x ∈ g.2, key x = g.1) →
      ∀ g ∈ l.foldl (fun acc x => upsert (key x) x acc) acc,
        g.2 ≠ [] ∧ ∀ x ∈ g.2, key x = g.1 := by
  induction l with
  | nil => intro acc h; simpa using h
  | cons x xs ih =>
    intro acc h
    rw [List.foldl_cons]
    refine ih _ ?_
    intro g hg
    rcases mem_upsert (key x) x acc g hg with h1 | ⟨hk, vs, hvs, horig⟩
    · exact h g h1
    · constructor
      · rw [hvs]; simp
      · intro y hy
        rw [hvs] at hy
        rcases List.mem_append.mp hy with h2 | h2
        · rcases horig with h3 | h3
          · exact ((h _ h3).2 y h2).trans hk.symm
          · rw [h3] at h2; simp at h2
        · rw [List.mem_singleton] at h2
          subst h2
          rw [hk]

theorem groupByKey_members {κ α : Type} [DecidableEq κ] (key : α → κ) (l : List α) :
    ∀ g ∈ groupByKey key l, g.2 ≠ [] ∧ ∀ x ∈ g.2, key x = g.1 :=
  groupByKey_members_aux key l [] (by simp)

theorem nodup_map_inj {α β : Type} (f : α → β) (l : List α) (h : (l.map f).Nodup) :
    ∀ x ∈ l, ∀ y ∈ l, f x = f y → x = y := by
  induction l with
  | nil => intro x hx; simp at hx
  | cons a as ih =>
    rw [List.map_cons, List.nodup_cons] at h
    intro x hx y hy hf
    rcases List.mem_cons.mp hx with rfl | hx2 <;> rcases List.mem_cons.mp hy with rfl | hy2
    · rfl
    · exact absurd (hf ▸ List.mem_map_of_mem f hy2) h.1
    · exact absurd (hf ▸ List.mem_map_of_mem f hx2) h.1
    · exact ih h.2 x hx2 y hy2 hf

theorem nodup_map_iff_pw {α β : Type} (f : α → β) (l : List α) :
    (l.map f).Nodup ↔ l.Pairwise (fun a b => f a ≠ f b) := by
  induction l with
  | nil => simp
  | cons a as ih =>
    rw [List.map_cons, List.nodup_cons, List.pairwise_cons, ih]
    constructor
    · rintro ⟨h1, h2⟩
      refine ⟨?_, h2⟩
      intro b hb hc
      exact h1 (hc ▸ List.mem_map_of_mem f hb)
    · rintro ⟨h1, h2⟩
      refine ⟨?_, h2⟩
      intro hc
      rcases List.mem_map.mp hc with ⟨b, hb, hfb⟩
      exact h1 b hb hfb.symm

theorem dictInsert_fresh (e : Entity) (l : List Entity) (h : e.id ∉ l.map Entity.id) :
    dictInsert e l = l ++ [e] := by
  induction l with
  | nil => rfl
  | cons x xs ih =>
    rw [dictInsert]
    rw [List.map_cons, List.mem_cons] at h
    push_neg at h
    rw [if_neg (fun hc => h.1 hc.symm), ih h.2, List.cons_append]

theorem mem_map_id_dictInsert (e : Entity) (l : List Entity) :
    ∀ x ∈ l.map Entity.id, x ∈ (dictInsert e l).map Entity.id := by
  induction l with
  | nil => intro x hx; simp at hx
  | cons y ys ih =>
    intro x hx
    rw [dictInsert]
    rcases List.mem_cons.mp hx with h1 | h1
    · split
      · rename_i hy
        rw [List.map_cons, List.mem_cons]
        exact Or.inl (h1.trans hy)
      · rw [List.map_cons, List.mem_cons]
        exact Or.inl h1
    · split
      · rw [List.map_cons, List.mem_cons]
        exact Or.inr h1
      · rw [List.map_cons, List.mem_cons]
        exact Or.inr (ih x h1)

theorem mem_mapUpsert (k v : String) (m : List (String × String))
    (p : String × String) (hp : p ∈ mapUpsert k v m) : p = (k, v) ∨ p ∈ m := by
  induction m with
  | nil =>
    rw [mapUpsert, List.mem_singleton] at hp
    exact Or.inl hp
  | cons q rest ih =>
    rcases q with ⟨k1, v1⟩
    rw [mapUpsert] at hp
    split at hp
    · rename_i hk
      rcases List.mem_cons.mp hp with rfl | h2
      · exact Or.inl (by rw [hk])
      · exact Or.inr (List.mem_cons_of_mem _ h2)
    · rcases List.mem_cons.mp hp with rfl | h2
      · exact Or.inr (List.mem_cons_self _ _)
      · rcases ih h2 with h3 | h3
        · exact Or.inl h3
        · exact Or.inr (List.mem_cons_of_mem _ h3)

theorem keys_mapUpsert_iff (k v : String) (m : List (String × String)) (x : String) :
    x ∈ (mapUpsert k v m).map Prod.fst ↔ x = k ∨ x ∈ m.map Prod.fst := by
  induction m with
  | nil => simp [mapUpsert]
  | cons q rest ih =>
    rcases q with ⟨k1, v1⟩
    rw [mapUpsert]
    split
    · rename_i hk
      subst hk
      simp only [List.map_cons, List.mem_cons]
      tauto
    · simp only [List.map_cons, List.mem_cons, ih]
      tauto

/-- Flattened duplicate-id lists of a decision list. -/
def decsDups (decs : List EntityDecision) : List String :=
  (decs.map (fun d => d.duplicateEntityIds)).flatten

theorem decsDups_append (d1 d2 : List EntityDecision) :
    decsDups (d1 ++ d2) = decsDups d1 ++ decsDups d2 := by
  rw [decsDups, decsDups, decsDups, List.map_append, List.flatten_append]

theorem mem_decsDups (decs : List EntityDecision) (x : String) :
    x ∈ decsDups decs ↔ ∃ d ∈ decs, x ∈ d.duplicateEntityIds := by
  rw [decsDups, List.mem_flatten]
  constructor
  · rintro ⟨l, hl, hx⟩
    rcases List.mem_map.mp hl with ⟨d, hd, rfl⟩
    exact ⟨d, hd, hx⟩
  · rintro ⟨d, hd, hx⟩
    exact ⟨d.duplicateEntityIds, List.mem_map_of_mem _ hd, hx⟩

theorem mem_buildMapping_inner (cid : String) (dups : List String) :
    ∀ (m0 : List (String × String)) (p : String × String),
      p ∈ dups.foldl (fun m2 dup => mapUpsert dup cid m2) m0 →
      p ∈ m0 ∨ (p.1 ∈ dups ∧ p.2 = cid) := by
  induction dups with
  | nil => intro m0 p hp; exact Or.inl hp
  | cons d ds ih =>
    intro m0 p hp
    rw [List.foldl_cons] at hp
    rcases ih _ p hp with h1 | h1
    · rcases mem_mapUpsert d cid m0 p h1 with h2 | h2
      · subst h2
        exact Or.inr ⟨List.mem_cons_self d ds, rfl⟩
      · exact Or.inl h2
    · exact Or.inr ⟨List.mem_cons_of_mem d h1.1, h1.2⟩

theorem keys_buildMapping_inner (cid : String) (dups : List String) :
    ∀ (m0 : List (String × String)) (x : String),
      (x ∈ m0.map Prod.fst ∨ x ∈ dups) →
      x ∈ (dups.foldl (fun m2 dup => mapUpsert dup cid m2) m0).map Prod.fst := by
  induction dups with
  | nil =>
    intro m0 x hx
    rcases hx with h | h
    · exact h
    · simp at h
  | cons d ds ih =>
    intro m0 x hx
    rw [List.foldl_cons]
    refine ih _ x ?_
    rcases hx with h | h
    · exact Or.inl ((keys_mapUpsert_iff d cid m0 x).mpr (Or.inr h))
    · rcases List.mem_cons.mp h with rfl | h2
      · exact Or.inl ((keys_mapUpsert_iff x cid m0 x).mpr (Or.inl rfl))
      · exact Or.inr h2

theorem mem_buildMapping (decs : List EntityDecision) :
    ∀ (m0 : List (String × String)) (p : String × String),
      p ∈ decs.foldl
        (fun m d => d.duplicateEntityIds.foldl
          (fun m2 dup => mapUpsert dup d.canonicalEntityId m2) m) m0 →
      p ∈ m0 ∨ ∃ d ∈ decs, p.1 ∈ d.duplicateEntityIds ∧ p.2 = d.canonicalEntityId := by
  induction decs with
  | nil => intro m0 p hp; exact Or.inl hp
  | cons d ds ih =>
    intro m0 p hp
    rw [List.foldl_cons] at hp
    rcases ih _ p hp with h1 | ⟨d2, hd2, hp2⟩
    · rcases mem_buildMapping_inner d.canonicalEntityId d.duplicateEntityIds m0 p h1 with h2 | h2
      · exact Or.inl h2
      · exact Or.inr ⟨d, List.mem_cons_self d ds, h2⟩
    · exact Or.inr ⟨d2, List.mem_cons_of_mem d hd2, hp2⟩

theorem keys_buildMapping (decs : List EntityDecision) :
    ∀ (m0 : List (String × String)) (x : String),
      (x ∈ m0.map Prod.fst ∨ x ∈ decsDups decs) →
      x ∈ (decs.foldl
        (fun m d => d.duplicateEntityIds.foldl
          (fun m2 dup => mapUpsert dup d.canonicalEntityId m2) m) m0).map Prod.fst := by
  induction decs with
  | nil =>
    intro m0 x hx
    rcases hx with h | h
    · exact h
    · rw [mem_decsDups] at h
      rcases h with ⟨d, hd, _⟩
      simp at hd
  | cons d ds ih =>
    intro m0 x hx
    rw [List.foldl_cons]
    refine ih _ x ?_
    rcases hx with h | h
    · exact Or.inl (keys_buildMapping_inner _ _ m0 x (Or.inl h))
    · rw [decsDups, List.map_cons, List.flatten_cons, List.mem_append] at h
      rcases h with h2 | h2
      · exact Or.inl (keys_buildMapping_inner _ _ m0 x (Or.inr h2))
      · exact Or.inr h2

theorem buildEntityIdMapping_mem (decs : List EntityDecision) (p : String × String)
    (hp : p ∈ buildEntityIdMapping decs) :
    ∃ d ∈ decs, p.1 ∈ d.duplicateEntityIds ∧ p.2 = d.canonicalEntityId := by
  rcases mem_buildMapping decs [] p hp with h | h
  · simp at h
  · exact h

theorem buildEntityIdMapping_keys (decs : List EntityDecision) (x : String) :
    x ∈ (buildEntityIdMapping decs).map Prod.fst ↔ x ∈ decsDups decs := by
  constructor
  · intro h
    rcases List.mem_map.mp h with ⟨p, hp, rfl⟩
    rcases buildEntityIdMapping_mem decs p hp with ⟨d, hd, h2, _⟩
    exact (mem_decsDups decs p.1).mpr ⟨d, hd, h2⟩
  · intro h
    exact keys_buildMapping decs [] x (Or.inr h)

theorem filter_ne_perm (es : List Entity) (m : Entity) (hm : m ∈ es)
    (hnd : (es.map Entity.id).Nodup) :
    (es.map Entity.id).Perm
      (m.id :: ((es.filter (fun e => decide (e.id ≠ m.id))).map Entity.id)) := by
  induction es with
  | nil => simp at hm
  | cons x xs ih =>
    rw [List.map_cons, List.nodup_cons] at hnd
    rcases List.mem_cons.mp hm with rfl | hm2
    · rw [List.filter_cons_of_neg (by simp)]
      have hfil : xs.filter (fun e => decide (e.id ≠ m.id)) = xs := by
        rw [List.filter_eq_self]
        intro e he
        simp only [decide_eq_true_iff]
        intro hc
        exact hnd.1 (hc ▸ List.mem_map_of_mem Entity.id he)
      rw [hfil, List.map_cons]
    · have hxne : x.id ≠ m.id := by
        intro hc
        exact hnd.1 (hc ▸ List.mem_map_of_mem Entity.id hm2)
      rw [List.filter_cons_of_pos (by simpa using hxne), List.map_cons, List.map_cons]
      refine ((ih hm2 hnd.2).cons x.id).trans ?_
      exact List.Perm.swap _ _ _

theorem gvals_perm {κ α : Type} {l1 l2 : List (κ × List α)} (h : l1.Perm l2) :
    (gvals l1).Perm (gvals l2) := by
  induction h with
  | nil => exact List.Perm.refl _
  | cons x _ ih =>
    rw [gvals_cons, gvals_cons]
    exact ih.append_left x.2
  | swap x y l =>
    rw [gvals_cons, gvals_cons, gvals_cons, gvals_cons, ← List.append_assoc, ← List.append_assoc]
    exact (List.perm_append_comm).append_right (gvals l)
  | trans _ _ ih1 ih2 => exact ih1.trans ih2

theorem mem_gvals {κ α : Type} (l : List (κ × List α)) (x : α) :
    x ∈ gvals l ↔ ∃ g ∈ l, x ∈ g.2 := by
  rw [gvals, List.mem_flatten]
  constructor
  · rintro ⟨vs, hvs, hx⟩
    rcases List.mem_map.mp hvs with ⟨g, hg, rfl⟩
    exact ⟨g, hg, hx⟩
  · rintro ⟨g, hg, hx⟩
    exact ⟨g.2, List.mem_map_of_mem Prod.snd hg, hx⟩

theorem foldr_append_values {κ α : Type} (l : List (κ × List α)) :
    l.foldr (fun b acc => b.2 ++ acc) [] = gvals l := by
  induction l with
  | nil => rfl
  | cons b rest ih => rw [List.foldr_cons, ih, gvals_cons]

theorem filter_used_split (τ : ℚ) (all : List (String × List Entity))
    (hkeys : (all.map Prod.fst).Nodup) (n : String) (used : List String) :
    all.filter (fun b => decide (b.1 ∉
        used ++ (all.filter (fun b2 => decide (b2.1 ∉ used) && similarityTest τ n b2.1)).map
          Prod.fst)) =
      all.filter (fun b => decide (b.1 ∉ used) && !(similarityTest τ n b.1)) := by
  refine List.filter_congr ?_
  intro b hb
  by_cases hu : b.1 ∈ used
  · simp [List.mem_append, hu]
  · by_cases hs : similarityTest τ n b.1 = true
    · have hmem : b.1 ∈
          (all.filter (fun b2 => decide (b2.1 ∉ used) && similarityTest τ n b2.1)).map Prod.fst :=
        List.mem_map_of_mem Prod.fst
          (List.mem_filter.mpr ⟨hb, by simp [hu, hs]⟩)
      simp only [List.mem_append, hu, hs, hmem]
      simp [hu, hs]
    · have hnmem : b.1 ∉
          (all.filter (fun b2 => decide (b2.1 ∉ used) && similarityTest τ n b2.1)).map Prod.fst := by
        intro hc
        rcases List.mem_map.mp hc with ⟨b2, hb2, hbeq⟩
        have hb2all : b2 ∈ all := (List.mem_filter.mp hb2).1
        have : b2 = b := nodup_map_inj Prod.fst all hkeys b2 hb2all b hb hbeq
        subst this
        have := (List.mem_filter.mp hb2).2
        rw [Bool.and_eq_true] at this
        exact hs this.2
      simp [List.mem_append, hu, hs, hnmem]

theorem matched_as_double_filter (τ : ℚ) (all : List (String × List Entity))
    (n : String) (used : List String) :
    (all.filter (fun b => decide (b.1 ∉ used))).filter (fun b => similarityTest τ n b.1) =
      all.filter (fun b => decide (b.1 ∉ used) && similarityTest τ n b.1) := by
  rw [List.filter_filter]
  exact List.filter_congr (fun b _ => Bool.and_comm _ _)

theorem unmatched_as_double_filter (τ : ℚ) (all : List (String × List Entity))
    (n : String) (used : List String) :
    (all.filter (fun b => decide (b.1 ∉ used))).filter
        (fun b => !(similarityTest τ n b.1)) =
      all.filter (fun b => decide (b.1 ∉ used) && !(similarityTest τ n b.1)) := by
  rw [List.filter_filter]
  exact List.filter_congr (fun b _ => Bool.and_comm _ _)

theorem formClustersGo_perm (τ : ℚ) (all : List (String × List Entity))
    (hkeys : (all.map Prod.fst).Nodup)
    (hne : ∀ b ∈ all, b.2 ≠ [])
    (hsim : ∀ b ∈ all, similarityTest τ b.1 b.1 = true) :
    ∀ (ns used : List String),
      (∀ x ∈ ns, x ∈ all.map Prod.fst) →
      (∀ k ∈ all.map Prod.fst, k ∈ ns ∨ k ∈ used) →
      (gvals (formClustersGo τ all ns used)).Perm
        (gvals (all.filter (fun b => decide (b.1 ∉ used)))) := by
  intro ns
  induction ns with
  | nil =>
    intro used _ hcover
    have hfil : all.filter (fun b => decide (b.1 ∉ used)) = [] := by
      rw [List.filter_eq_nil_iff]
      intro b hb
      rcases hcover b.1 (List.mem_map_of_mem Prod.fst hb) with h | h
      · simp at h
      · simp [h]
    rw [formClustersGo, hfil]
  | cons n rest ih =>
    intro used hsub hcover
    by_cases hn : n ∈ used
    · rw [formClustersGo, if_pos hn]
      refine ih used (fun x hx => hsub x (List.mem_cons_of_mem n hx)) ?_
      intro k hk
      rcases hcover k hk with h | h
      · rcases List.mem_cons.mp h with rfl | h2
        · exact Or.inr hn
        · exact Or.inl h2
      · exact Or.inr h
    · rcases List.mem_map.mp (hsub n (List.mem_cons_self n rest)) with ⟨b0, hb0, hb0n⟩
      have hb0m : b0 ∈ all.filter (fun b2 => decide (b2.1 ∉ used) && similarityTest τ n b2.1) := by
        refine List.mem_filter.mpr ⟨hb0, ?_⟩
        rw [Bool.and_eq_true, decide_eq_true_iff]
        exact ⟨hb0n ▸ hn, hb0n ▸ hsim b0 hb0⟩
      have hces : (all.filter
          (fun b2 => decide (b2.1 ∉ used) && similarityTest τ n b2.1)).foldr
            (fun b acc => b.2 ++ acc) [] ≠ [] := by
        rw [foldr_append_values]
        rcases List.exists_mem_of_ne_nil b0.2 (hne b0 hb0) with ⟨x, hx⟩
        intro hc
        exact List.not_mem_nil x (hc ▸ (mem_gvals _ x).mpr ⟨b0, hb0m, hx⟩)
      rw [formClustersGo, if_neg hn]
      simp only []
      rw [if_neg (by simpa using hces)]
      rw [gvals_cons]
      have hrec := ih (used ++ (all.filter
            (fun b2 => decide (b2.1 ∉ used) && similarityTest τ n b2.1)).map Prod.fst)
        (fun x hx => hsub x (List.mem_cons_of_mem n hx)) ?_
      · refine (List.Perm.append_left _ hrec).trans ?_
        rw [filter_used_split τ all hkeys n used, foldr_append_values,
          ← unmatched_as_double_filter, ← matched_as_double_filter, ← gvals_append]
        exact gvals_perm (List.filter_append_perm _ _)
      · intro k hk
        rcases hcover k hk with h | h
        · rcases List.mem_cons.mp h with rfl | h2
          · exact Or.inr (List.mem_append.mpr (Or.inr (List.mem_map.mpr ⟨b0, hb0m, hb0n⟩)))
          · exact Or.inl h2
        · exact Or.inr (List.mem_append.mpr (Or.inl h))

theorem formClusters_perm (τ : ℚ) (buckets : List (String × List Entity))
    (hkeys : (buckets.map Prod.fst).Nodup)
    (hne : ∀ b ∈ buckets, b.2 ≠ [])
    (hsim : ∀ b ∈ buckets, similarityTest τ b.1 b.1 = true) :
    (gvals (formClusters τ buckets)).Perm (gvals buckets) := by
  rw [formClusters]
  have h := formClustersGo_perm τ buckets hkeys hne hsim (buckets.map Prod.fst) []
    (fun x hx => hx) (fun k hk => Or.inl hk)
  refine h.trans ?_
  have : buckets.filter (fun b => decide (b.1 ∉ ([] : List String))) = buckets := by
    rw [List.filter_eq_self]
    intro b _
    simp
  rw [this]

theorem snd_mem_of_mem_enumFrom {α : Type} (l : List α) :
    ∀ (n : Nat) (p : Nat × α), p ∈ l.enumFrom n → p.2 ∈ l := by
  induction l with
  | nil => intro n p hp; simp [List.enumFrom] at hp
  | cons x xs ih =>
    intro n p hp
    rw [List.enumFrom] at hp
    rcases List.mem_cons.mp hp with rfl | h2
    · exact List.mem_cons_self x xs
    · exact List.mem_cons_of_mem x (ih (n + 1) p h2)

theorem scoredEntities_mem (es : List Entity) (p : Entity × ℚ) (hp : p ∈ scoredEntities es) :
    p.1 ∈ es := by
  rw [scoredEntities] at hp
  rcases List.mem_map.mp hp with ⟨q, hq, rfl⟩
  exact snd_mem_of_mem_enumFrom es 0 q hq

theorem firstMaxScore_isSome (l : List (Entity × ℚ)) (h : l ≠ []) :
    ∃ p, firstMaxScore l = some p := by
  cases l with
  | nil => exact absurd rfl h
  | cons q rest => exact ⟨_, rfl⟩

theorem firstMaxConf_isSome (l : List Entity) (h : l ≠ []) :
    ∃ m, firstMaxConf l = some m := by
  cases l with
  | nil => exact absurd rfl h
  | cons e rest => exact ⟨_, rfl⟩

theorem firstMaxConf_mem (l : List Entity) (m : Entity) (h : firstMaxConf l = some m) :
    m ∈ l := by
  cases l with
  | nil => simp [firstMaxConf] at h
  | cons e rest =>
    rw [firstMaxConf, Option.some.injEq] at h
    rcases foldl_pick_mem (fun best x => qltb best.confidence x.confidence) rest e with h2 | h2
    · rw [← h, h2]; exact List.mem_cons_self e rest
    · rw [← h]; exact List.mem_cons_of_mem e h2

theorem medoidCandidates_sub (es : List Entity) (x : Entity) (hx : x ∈ medoidCandidates es) :
    x ∈ es := by
  rw [medoidCandidates] at hx
  rcases hfs : firstMaxScore (scoredEntities es) with _ | best
  · rw [hfs] at hx; simp at hx
  · rw [hfs] at hx
    rcases List.mem_map.mp hx with ⟨p, hp, rfl⟩
    exact scoredEntities_mem es p (List.mem_filter.mp hp).1

theorem scoredEntities_ne_nil (es : List Entity) (h : es ≠ []) : scoredEntities es ≠ [] := by
  intro hc
  have := congrArg List.length hc
  rw [scoredEntities, List.length_map, List.enum_length] at this
  exact h (List.length_eq_zero.mp this)

theorem selectMedoid_some (es : List Entity) (h : es ≠ []) :
    ∃ m, selectMedoid es = some m ∧ m ∈ es := by
  cases es with
  | nil => exact absurd rfl h
  | cons e1 es' =>
    cases es' with
    | nil => exact ⟨e1, rfl, List.mem_cons_self e1 []⟩
    | cons e2 rest =>
      obtain ⟨best, hfs⟩ :=
        firstMaxScore_isSome _ (scoredEntities_ne_nil _ (List.cons_ne_nil e1 (e2 :: rest)))
      simp only [selectMedoid, hfs]
      by_cases hc : 1 < (medoidCandidates (e1 :: e2 :: rest)).length
      · rw [if_pos hc]
        obtain ⟨m, hfc⟩ := firstMaxConf_isSome (medoidCandidates (e1 :: e2 :: rest))
          (by intro hnil; rw [hnil] at hc; simp at hc)
        rw [hfc]
        exact ⟨m, rfl, medoidCandidates_sub _ m (firstMaxConf_mem _ m hfc)⟩
      · rw [if_neg hc]
        exact ⟨best.1, rfl, scoredEntities_mem _ best (firstMaxScore_mem _ best hfs)⟩

theorem findMatching_step (τ : ℚ) (e : Entity) (acc : ℚ × Option Entity) (c : Entity) :
    (if c.type = e.type then
        if qltb acc.1 (partRatio (cleanName e.name) (cleanName c.name)) &&
            qleb τ (partRatio (cleanName e.name) (cleanName c.name)) then
          (partRatio (cleanName e.name) (cleanName c.name), some c)
        else acc
      else acc).2 = acc.2 ∨
    (if c.type = e.type then
        if qltb acc.1 (partRatio (cleanName e.name) (cleanName c.name)) &&
            qleb τ (partRatio (cleanName e.name) (cleanName c.name)) then
          (partRatio (cleanName e.name) (cleanName c.name), some c)
        else acc
      else acc).2 = some c := by
  by_cases h1 : c.type = e.type
  · rw [if_pos h1]
    by_cases h2 : (qltb acc.1 (partRatio (cleanName e.name) (cleanName c.name)) &&
        qleb τ (partRatio (cleanName e.name) (cleanName c.name))) = true
    · rw [if_pos h2]; exact Or.inr rfl
    · rw [if_neg h2]; exact Or.inl rfl
  · rw [if_neg h1]; exact Or.inl rfl

theorem findMatching_fold_mem (τ : ℚ) (e : Entity) (canon : List Entity) :
    ∀ (acc : ℚ × Option Entity) (c : Entity),
      (canon.foldl
        (fun (acc : ℚ × Option Entity) c =>
          if c.type = e.type then
            let score := partRatio (cleanName e.name) (cleanName c.name)
            if qltb acc.1 score && qleb τ score then (score, some c) else acc
          else acc)
        acc).2 = some c →
      acc.2 = some c ∨ c ∈ canon := by
  induction canon with
  | nil => intro acc c hc; exact Or.inl hc
  | cons c0 cs ih =>
    intro acc c hc
    rw [List.foldl_cons] at hc
    rcases ih _ c hc with h1 | h1
    · rcases findMatching_step τ e acc c0 with h2 | h2
      · exact Or.inl (h2 ▸ h1)
      · rw [h1] at h2
        rw [Option.some.injEq] at h2
        exact Or.inr (h2 ▸ List.mem_cons_self c0 cs)
    · exact Or.inr (List.mem_cons_of_mem c0 h1)

theorem findMatchingCanonical_mem (τ : ℚ) (canon : List Entity) (e ex : Entity)
    (h : findMatchingCanonical τ canon e = some ex) : ex ∈ canon := by
  rw [findMatchingCanonical] at h
  rcases findMatching_fold_mem τ e canon (0, none) ex h with h1 | h1
  · simp at h1
  · exact h1

theorem mem_id_dictInsert_self (e : Entity) (l : List Entity) :
    e.id ∈ (dictInsert e l).map Entity.id := by
  induction l with
  | nil => exact List.mem_singleton.mpr rfl
  | cons x xs ih =>
    rw [dictInsert]
    by_cases hx : x.id = e.id
    · rw [if_pos hx, List.map_cons]
      exact List.mem_cons_self _ _
    · rw [if_neg hx, List.map_cons]
      exact List.mem_cons_of_mem _ ih

theorem resolveEntityCluster_perm (τ : ℚ) (st : RState) (es : List Entity) (hne : es ≠ [])
    (hnd : ((st.canonical.map Entity.id ++ decsDups st.decisions) ++
      es.map Entity.id).Nodup) :
    ((resolveEntityCluster τ st es).canonical.map Entity.id ++
        decsDups (resolveEntityCluster τ st es).decisions).Perm
      ((st.canonical.map Entity.id ++ decsDups st.decisions) ++ es.map Entity.id) := by
  rw [List.nodup_append] at hnd
  obtain ⟨hnd1, hesnd, hdisj⟩ := hnd
  have hcanDisj : ∀ x ∈ es.map Entity.id, x ∉ st.canonical.map Entity.id := by
    intro x hx hcx
    exact hdisj (List.mem_append.mpr (Or.inl hcx)) hx
  obtain ⟨m, hsm, hmem⟩ := selectMedoid_some es hne
  have hperm := filter_ne_perm es m hmem hesnd
  have hmfresh : m.id ∉ st.canonical.map Entity.id :=
    hcanDisj m.id (List.mem_map_of_mem Entity.id hmem)
  simp only [resolveEntityCluster, hsm]
  rcases hfm : findMatchingCanonical τ st.canonical m with _ | ex
  · simp only []
    rcases hdup : (es.filter (fun e => decide (e.id ≠ m.id))).map (fun e => e.id) with _ | ⟨d, ds⟩
    · rw [hdup]
      simp only [List.isEmpty_nil, if_pos]
      rw [dictInsert_fresh m st.canonical hmfresh, List.map_append]
      have hes1 : (es.map Entity.id).Perm [m.id] := by
        refine hperm.trans ?_
        rw [show (es.filter (fun e => decide (e.id ≠ m.id))).map Entity.id =
            (es.filter (fun e => decide (e.id ≠ m.id))).map (fun e => e.id) from rfl, hdup]
      refine List.Perm.trans ?_ ((hes1.append_left _).symm)
      rw [List.append_assoc, List.append_assoc]
      exact List.Perm.append_left _ List.perm_append_comm
    · rw [hdup]
      simp only [List.isEmpty_cons, Bool.false_eq_true, if_false]
      rw [dictInsert_fresh m st.canonical hmfresh, List.map_append, decsDups_append]
      have hes1 : (es.map Entity.id).Perm (m.id :: (d :: ds)) := by
        refine hperm.trans ?_
        rw [show (es.filter (fun e => decide (e.id ≠ m.id))).map Entity.id =
            (es.filter (fun e => decide (e.id ≠ m.id))).map (fun e => e.id) from rfl, hdup]
      refine List.Perm.trans ?_ ((hes1.append_left _).symm)
      have hd1 : decsDups [⟨m.id, d :: ds, clusterSimilarity es, "fuzzy_match_medoid",
          resolutionConfidence es⟩] = d :: ds := by
        rw [decsDups]; simp
      rw [hd1, List.append_assoc, List.append_assoc]
      refine List.Perm.append_left _ ?_
      simp only [List.map_cons, List.map_nil, List.singleton_append]
      exact List.perm_middle.symm
  · simp only []
    have hdup : (es.map fun e => e.id).isEmpty = false := by
      cases es with
      | nil => exact absurd rfl hne
      | cons a as => rfl
    rw [hdup]
    simp only [Bool.false_eq_true, if_false]
    rw [decsDups_append]
    have hd1 : decsDups [⟨ex.id, es.map fun e => e.id, clusterSimilarity es,
        "fuzzy_match_medoid", resolutionConfidence es⟩] = es.map Entity.id := by
      rw [decsDups]; simp
    rw [hd1, ← List.append_assoc]

theorem processCluster_perm (τ : ℚ) (st : RState) (cl : String × List Entity)
    (hnd : ((st.canonical.map Entity.id ++ decsDups st.decisions) ++
      cl.2.map Entity.id).Nodup) :
    ((processCluster τ st cl).canonical.map Entity.id ++
        decsDups (processCluster τ st cl).decisions).Perm
      ((st.canonical.map Entity.id ++ decsDups st.decisions) ++ cl.2.map Entity.id) := by
  rcases hcl : cl.2 with _ | ⟨e1, es'⟩
  · rw [processCluster, hcl]
    simp
  · rcases es' with _ | ⟨e2, rest⟩
    · rw [processCluster, hcl]
      rw [hcl] at hnd
      have hfresh : e1.id ∉ st.canonical.map Entity.id := by
        rw [List.nodup_append] at hnd
        intro hc
        exact hnd.2.2 (List.mem_append.mpr (Or.inl hc)) (List.mem_singleton.mpr rfl)
      simp only []
      rw [dictInsert_fresh e1 st.canonical hfresh, List.map_append]
      rw [List.append_assoc, List.append_assoc]
      exact List.Perm.append_left _ List.perm_append_comm
    · rw [processCluster, hcl]
      rw [hcl] at hnd
      exact resolveEntityCluster_perm τ st (e1 :: e2 :: rest) (List.cons_ne_nil e1 (e2 :: rest))
        hnd

theorem processClusters_perm (τ : ℚ) (cls : List (String × List Entity)) :
    ∀ st : RState,
      ((st.canonical.map Entity.id ++ decsDups st.decisions) ++
        (gvals cls).map Entity.id).Nodup →
      (((cls.foldl (processCluster τ) st).canonical.map Entity.id) ++
          decsDups (cls.foldl (processCluster τ) st).decisions).Perm
        ((st.canonical.map Entity.id ++ decsDups st.decisions) ++
          (gvals cls).map Entity.id) := by
  induction cls with
  | nil =>
    intro st _
    rw [List.foldl_nil, gvals_nil, List.map_nil, List.append_nil]
  | cons cl rest ih =>
    intro st hnd
    rw [gvals_cons, List.map_append, ← List.append_assoc] at hnd
    have hnd1 : ((st.canonical.map Entity.id ++ decsDups st.decisions) ++
        cl.2.map Entity.id).Nodup :=
      List.Nodup.sublist (List.sublist_append_left _ _) hnd
    have hstep := processCluster_perm τ st cl hnd1
    have hnd2 : (((processCluster τ st cl).canonical.map Entity.id ++
        decsDups (processCluster τ st cl).decisions) ++
        (gvals rest).map Entity.id).Nodup := by
      refine List.Perm.nodup ?_ hnd
      exact (hstep.append_right _).symm
    rw [List.foldl_cons]
    refine (ih _ hnd2).trans ?_
    refine (hstep.append_right _).trans ?_
    rw [gvals_cons, List.map_append, List.append_assoc]

theorem mem_of_mem_group {κ : Type} [DecidableEq κ] (key : Entity → κ) (l : List Entity)
    (g : κ × List Entity) (hg : g ∈ groupByKey key l) (x : Entity) (hx : x ∈ g.2) : x ∈ l :=
  (gvals_groupByKey key l).mem_iff.mp ((mem_gvals _ x).mpr ⟨g, hg, hx⟩)

theorem resolveByType_perm (τ : ℚ) (st : RState) (es : List Entity)
    (hnd : ((st.canonical.map Entity.id ++ decsDups st.decisions) ++
      es.map Entity.id).Nodup)
    (hsim : ∀ e ∈ es, similarityTest τ e.name e.name = true) :
    ((resolveByType τ st es).canonical.map Entity.id ++
        decsDups (resolveByType τ st es).decisions).Perm
      ((st.canonical.map Entity.id ++ decsDups st.decisions) ++ es.map Entity.id) := by
  rw [resolveByType]
  have hkeys : ((groupByKey (fun e => e.name) es).map Prod.fst).Nodup :=
    nodup_keys_groupByKey _ es
  have hne : ∀ b ∈ groupByKey (fun e => e.name) es, b.2 ≠ [] :=
    fun b hb2 => (groupByKey_members _ es b hb2).1
  have hsimB : ∀ b ∈ groupByKey (fun e => e.name) es, similarityTest τ b.1 b.1 = true := by
    intro b hb2
    obtain ⟨hne2, hkey⟩ := groupByKey_members (fun e => e.name) es b hb2
    rcases List.exists_mem_of_ne_nil b.2 hne2 with ⟨x, hx⟩
    rw [← hkey x hx]
    exact hsim x (mem_of_mem_group _ es b hb2 x hx)
  have hcl_es : (gvals (formClusters τ (groupByKey (fun e => e.name) es))).Perm es :=
    (formClusters_perm τ _ hkeys hne hsimB).trans (gvals_groupByKey (fun e => e.name) es)
  have hnd2 : ((st.canonical.map Entity.id ++ decsDups st.decisions) ++
      (gvals (formClusters τ (groupByKey (fun e => e.name) es))).map Entity.id).Nodup :=
    List.Perm.nodup (((hcl_es.map Entity.id).append_left _).symm) hnd
  exact (processClusters_perm τ _ st hnd2).trans ((hcl_es.map Entity.id).append_left _)

theorem fuzzyFold_perm (τ : ℚ) (groups : List (EntityType × List Entity)) :
    ∀ st : RState,
      ((st.canonical.map Entity.id ++ decsDups st.decisions) ++
        (gvals groups).map Entity.id).Nodup →
      (∀ e ∈ gvals groups, similarityTest τ e.name e.name = true) →
      (((groups.foldl (fun s p => resolveByType τ s p.2) st).canonical.map Entity.id) ++
          decsDups (groups.foldl (fun s p => resolveByType τ s p.2) st).decisions).Perm
        ((st.canonical.map Entity.id ++ decsDups st.decisions) ++
          (gvals groups).map Entity.id) := by
  induction groups with
  | nil =>
    intro st _ _
    rw [List.foldl_nil, gvals_nil, List.map_nil, List.append_nil]
  | cons g rest ih =>
    intro st hnd hsim
    rw [gvals_cons, List.map_append, ← List.append_assoc] at hnd
    have hnd1 : ((st.canonical.map Entity.id ++ decsDups st.decisions) ++
        g.2.map Entity.id).Nodup :=
      List.Nodup.sublist (List.sublist_append_left _ _) hnd
    have hstep := resolveByType_perm τ st g.2 hnd1
      (fun e he => hsim e ((mem_gvals _ e).mpr ⟨g, List.mem_cons_self g rest, he⟩))
    have hnd2 : (((resolveByType τ st g.2).canonical.map Entity.id ++
        decsDups (resolveByType τ st g.2).decisions) ++
        (gvals rest).map Entity.id).Nodup :=
      List.Perm.nodup ((hstep.append_right _).symm) hnd
    rw [List.foldl_cons]
    refine (ih _ hnd2 (fun e he => hsim e ((mem_gvals _ e).mpr ?_))).trans ?_
    · rcases (mem_gvals rest e).mp he with ⟨g2, hg2, he2⟩
      exact ⟨g2, List.mem_cons_of_mem g hg2, he2⟩
    · refine (hstep.append_right _).trans ?_
      rw [gvals_cons, List.map_append, List.append_assoc]

theorem fuzzyResolve_perm (τ : ℚ) (es : List Entity)
    (hids : (es.map Entity.id).Nodup)
    (hsim : ∀ e ∈ es, similarityTest τ e.name e.name = true) :
    ((fuzzyResolve τ es).canonical.map Entity.id ++
        decsDups (fuzzyResolve τ es).decisions).Perm (es.map Entity.id) := by
  rw [fuzzyResolve]
  have hg : (gvals (groupByKey (fun e => e.type) es)).Perm es :=
    gvals_groupByKey (fun e => e.type) es
  have hnd : ((([] : List Entity).map Entity.id ++ decsDups ([] : List EntityDecision)) ++
      (gvals (groupByKey (fun e => e.type) es)).map Entity.id).Nodup := by
    rw [List.map_nil]
    show ((decsDups []) ++ _).Nodup
    rw [decsDups, List.map_nil, List.flatten_nil, List.nil_append]
    exact List.Perm.nodup (hg.map Entity.id).symm hids
  have h := fuzzyFold_perm τ (groupByKey (fun e => e.type) es) ⟨[], []⟩ hnd
    (fun e he => hsim e (hg.mem_iff.mp he))
  refine h.trans ?_
  rw [List.map_nil]
  show ((decsDups []) ++ _).Perm _
  rw [decsDups, List.map_nil, List.flatten_nil, List.nil_append]
  exact hg.map Entity.id

theorem acronymFold_dups (τa : ℚ) (single : List Entity) (multi : List Entity) :
    ∀ acc : List EntityDecision × List String,
      decsDups acc.1 = acc.2 →
      decsDups (multi.foldl
        (fun (acc : List EntityDecision × List String) mw =>
          match single.find? (fun sw =>
              decide (sw.type = mw.type) &&
                qleb τa (ratioS (acronymOf mw.name) (upperStr sw.name))) with
          | some sw =>
            (acc.1 ++
                [⟨mw.id, [sw.id],
                  qdiv (ratioS (acronymOf mw.name) (upperStr sw.name)) (qnat 100),
                  "acronym_match", Rat.divInt 9 10⟩],
              acc.2 ++ [sw.id])
          | none => acc) acc).1 =
      (multi.foldl
        (fun (acc : List EntityDecision × List String) mw =>
          match single.find? (fun sw =>
              decide (sw.type = mw.type) &&
                qleb τa (ratioS (acronymOf mw.name) (upperStr sw.name))) with
          | some sw =>
            (acc.1 ++
                [⟨mw.id, [sw.id],
                  qdiv (ratioS (acronymOf mw.name) (upperStr sw.name)) (qnat 100),
                  "acronym_match", Rat.divInt 9 10⟩],
              acc.2 ++ [sw.id])
          | none => acc) acc).2 := by
  induction multi with
  | nil => intro acc h; exact h
  | cons mw ms ih =>
    intro acc h
    rw [List.foldl_cons]
    rcases hf : single.find? (fun sw =>
        decide (sw.type = mw.type) &&
          qleb τa (ratioS (acronymOf mw.name) (upperStr sw.name))) with _ | sw
    · simp only [hf]
      exact ih acc h
    · simp only [hf]
      refine ih _ ?_
      rw [decsDups_append, h]
      rfl

theorem acronymStep_dups (τa : ℚ) (canon : List Entity) :
    decsDups (acronymStep τa canon).1 = (acronymStep τa canon).2 := by
  rw [acronymStep]
  exact acronymFold_dups τa _ _ ([], []) rfl

theorem acronymFold_rem_sub (τa : ℚ) (canon : List Entity) (single : List Entity)
    (hsub : ∀ s ∈ single, s ∈ canon) (multi : List Entity) :
    ∀ acc : List EntityDecision × List String,
      (∀ x ∈ acc.2, x ∈ canon.map Entity.id) →
      ∀ x ∈ (multi.foldl
        (fun (acc : List EntityDecision × List String) mw =>
          match single.find? (fun sw =>
              decide (sw.type = mw.type) &&
                qleb τa (ratioS (acronymOf mw.name) (upperStr sw.name))) with
          | some sw =>
            (acc.1 ++
                [⟨mw.id, [sw.id],
                  qdiv (ratioS (acronymOf mw.name) (upperStr sw.name)) (qnat 100),
                  "acronym_match", Rat.divInt 9 10⟩],
              acc.2 ++ [sw.id])
          | none => acc) acc).2, x ∈ canon.map Entity.id := by
  induction multi with
  | nil => intro acc h; exact h
  | cons mw ms ih =>
    intro acc h
    rw [List.foldl_cons]
    rcases hf : single.find? (fun sw =>
        decide (sw.type = mw.type) &&
          qleb τa (ratioS (acronymOf mw.name) (upperStr sw.name))) with _ | sw
    · simp only [hf]
      exact ih acc h
    · simp only [hf]
      refine ih _ ?_
      intro x hx
      rcases List.mem_append.mp hx with h2 | h2
      · exact h x h2
      · rw [List.mem_singleton.mp h2]
        exact List.mem_map_of_mem Entity.id (hsub sw (List.mem_of_find?_eq_some hf))

theorem acronymStep_rem_sub (τa : ℚ) (canon : List Entity) :
    ∀ x ∈ (acronymStep τa canon).2, x ∈ canon.map Entity.id := by
  rw [acronymStep]
  exact acronymFold_rem_sub τa canon _
    (fun s hs => List.mem_of_mem_filter hs) _ ([], []) (by intro x hx; simp at hx)

theorem filter_map_comm {α β : Type} (f : α → β) (p : β → Bool) (l : List α) :
    (l.map f).filter p = (l.filter (fun a => p (f a))).map f := by
  induction l with
  | nil => rfl
  | cons a as ih =>
    rw [List.map_cons, List.filter_cons, List.filter_cons]
    by_cases h : p (f a) = true
    · simp only [h, if_true, List.map_cons, ih]
    · simp only [h, Bool.false_eq_true, if_false, ih]

theorem length_filter_not_mem (canon : List Entity) (rem : List String)
    (hcanon : (canon.map Entity.id).Nodup) (hrem : rem.Nodup)
    (hsub : ∀ x ∈ rem, x ∈ canon.map Entity.id) :
    (canon.filter (fun c => decide (c.id ∉ rem))).length + rem.length = canon.length := by
  have hperm : ((canon.map Entity.id).filter (fun x => decide (x ∈ rem))).Perm rem := by
    rw [List.perm_ext_iff_of_nodup (hcanon.filter _) hrem]
    intro a
    rw [List.mem_filter, decide_eq_true_iff]
    exact ⟨fun h => h.2, fun h => ⟨hsub a h, h⟩⟩
  have hlen1 : (canon.filter (fun c => decide (c.id ∈ rem))).length = rem.length := by
    have := congrArg List.length (filter_map_comm Entity.id (fun x => decide (x ∈ rem)) canon)
    rw [List.length_map] at this
    rw [← hperm.length_eq, this]
  have hsplit := (List.filter_append_perm (fun c => decide (c.id ∈ rem)) canon).length_eq
  rw [List.length_append] at hsplit
  have hcongr : canon.filter (fun c => decide (c.id ∉ rem)) =
      canon.filter (fun c => !(decide (c.id ∈ rem))) :=
    List.filter_congr (fun c _ => by simp)
  rw [hcongr]
  omega

theorem entitiesMergedStat_eq (decs : List EntityDecision) :
    entitiesMergedStat decs = (decsDups decs).length := by
  rw [entitiesMergedStat, decsDups]
  have : ∀ (l : List EntityDecision) (n : Nat),
      l.foldl (fun a d => a + d.duplicateEntityIds.length) n =
        n + ((l.map (fun d => d.duplicateEntityIds)).flatten).length := by
    intro l
    induction l with
    | nil => intro n; simp
    | cons d ds ih =>
      intro n
      rw [List.foldl_cons, ih, List.map_cons, List.flatten_cons, List.length_append]
      omega
  rw [this decs 0]
  omega

theorem resolveEntities_acr (τ τa : ℚ) (es : List Entity) :
    resolveEntities τ τa true es =
      ((fuzzyResolve τ es).canonical.filter
          (fun c => decide (c.id ∉ (acronymStep τa (fuzzyResolve τ es).canonical).2)),
        (fuzzyResolve τ es).decisions ++ (acronymStep τa (fuzzyResolve τ es).canonical).1) :=
  rfl

/-- C6 (amended): `stats.entities_merged` (the sum over all entity decisions of
the number of duplicate ids) equals `entities_processed` minus the number of
canonical entities returned *provided* the acronym pass retires no entity
twice (its removal list has no duplicate): for every input with distinct
entity ids whose names pass the self-similarity test, the canonical count
plus the merged count equals the processed count under that proviso.  The
proviso is necessary: when one single-word entity is an acronym match for
more than one multi-word entity of its type, its id enters two decisions'
duplicate lists but is removed from the canonical dict only once, and the
equation fails (see the counterexample). -/
theorem c6_merged_stat_amended (τ τa : ℚ) (es : List Entity)
    (hids : (es.map Entity.id).Nodup)
    (hsim : ∀ e ∈ es, similarityTest τ e.name e.name = true)
    (hrem : (acronymStep τa (fuzzyResolve τ es).canonical).2.Nodup) :
    (resolveEntities τ τa true es).1.length +
      entitiesMergedStat (resolveEntities τ τa true es).2 = es.length := by
  rw [resolveEntities_acr]
  have hfz := fuzzyResolve_perm τ es hids hsim
  have hlen := hfz.length_eq
  rw [List.length_append, List.length_map, List.length_map] at hlen
  have hnodup : ((fuzzyResolve τ es).canonical.map Entity.id ++
      decsDups (fuzzyResolve τ es).decisions).Nodup := hfz.symm.nodup hids
  have hcannd : ((fuzzyResolve τ es).canonical.map Entity.id).Nodup :=
    (List.nodup_append.mp hnodup).1
  have hcount := length_filter_not_mem (fuzzyResolve τ es).canonical
    (acronymStep τa (fuzzyResolve τ es).canonical).2 hcannd hrem
    (acronymStep_rem_sub τa (fuzzyResolve τ es).canonical)
  have hms : entitiesMergedStat ((fuzzyResolve τ es).decisions ++
      (acronymStep τa (fuzzyResolve τ es).canonical).1) =
      (decsDups (fuzzyResolve τ es).decisions).length +
        (acronymStep τa (fuzzyResolve τ es).canonical).2.length := by
    rw [entitiesMergedStat_eq, decsDups_append, List.length_append, acronymStep_dups]
  show ((fuzzyResolve τ es).canonical.filter
      (fun c => decide (c.id ∉ (acronymStep τa (fuzzyResolve τ es).canonical).2))).length +
    entitiesMergedStat ((fuzzyResolve τ es).decisions ++
      (acronymStep τa (fuzzyResolve τ es).canonical).1) = es.length
  rw [hms]
  omega

/-- C6 counterexample: on `[entM, entM2, entS]` (two multi-word KPI entities
`ax cx` and `ay cy` whose acronym is `AC`, plus the single-word KPI entity
`ac`), the single-word entity is an acronym match for both multi-word
entities: its id enters two decisions' duplicate lists but is removed once,
so `entities_merged = 2` while `entities_processed − |canonical| = 3 − 2 = 1`. -/
theorem c6_merged_stat_counterexample :
    (resolveEntities (Rat.divInt 80 1) (Rat.divInt 70 1) true [entM, entM2, entS]).1.length = 2 ∧
    entitiesMergedStat (resolveEntities (Rat.divInt 80 1) (Rat.divInt 70 1) true
      [entM, entM2, entS]).2 = 2 ∧
    ([entM, entM2, entS] : List Entity).length = 3 := by
  decide

/-- C6 witness: the amended count equation at the concrete input
`[entA, entB, entM]` (one fuzzy merge and one acronym merge). -/
theorem c6_merged_stat_amended_witness :
    (resolveEntities (Rat.divInt 80 1) (Rat.divInt 70 1) true [entA, entB, entM]).1.length +
      entitiesMergedStat (resolveEntities (Rat.divInt 80 1) (Rat.divInt 70 1) true
        [entA, entB, entM]).2 = ([entA, entB, entM] : List Entity).length :=
  c6_merged_stat_amended (Rat.divInt 80 1) (Rat.divInt 70 1) [entA, entB, entM]
    (by decide) (by decide) (by decide)

theorem resolveEntityCluster_targets (τ : ℚ) (st : RState) (es : List Entity)
    (h : ∀ d ∈ st.decisions, d.canonicalEntityId ∈ st.canonical.map Entity.id) :
    ∀ d ∈ (resolveEntityCluster τ st es).decisions,
      d.canonicalEntityId ∈ (resolveEntityCluster τ st es).canonical.map Entity.id := by
  rcases hsm : selectMedoid es with _ | m
  · simp only [resolveEntityCluster, hsm]
    exact h
  · rcases hfm : findMatchingCanonical τ st.canonical m with _ | ex
    · simp only [resolveEntityCluster, hsm, hfm]
      by_cases hdup : ((es.filter (fun e => decide (e.id ≠ m.id))).map fun e => e.id).isEmpty =
          true
      · rw [if_pos hdup]
        intro d hd
        exact mem_map_id_dictInsert m st.canonical d.canonicalEntityId (h d hd)
      · rw [if_neg hdup]
        intro d hd
        rcases List.mem_append.mp hd with h2 | h2
        · exact mem_map_id_dictInsert m st.canonical d.canonicalEntityId (h d h2)
        · rw [List.mem_singleton.mp h2]
          exact mem_id_dictInsert_self m st.canonical
    · simp only [resolveEntityCluster, hsm, hfm]
      by_cases hdup : ((es.map fun e => e.id).isEmpty = true)
      · rw [if_pos hdup]
        exact h
      · rw [if_neg hdup]
        intro d hd
        rcases List.mem_append.mp hd with h2 | h2
        · exact h d h2
        · rw [List.mem_singleton.mp h2]
          exact List.mem_map_of_mem Entity.id (findMatchingCanonical_mem τ st.canonical m ex hfm)

theorem processCluster_targets (τ : ℚ) (st : RState) (cl : String × List Entity)
    (h : ∀ d ∈ st.decisions, d.canonicalEntityId ∈ st.canonical.map Entity.id) :
    ∀ d ∈ (processCluster τ st cl).decisions,
      d.canonicalEntityId ∈ (processCluster τ st cl).canonical.map Entity.id := by
  rw [processCluster]
  rcases cl.2 with _ | ⟨e1, es'⟩
  · exact h
  · rcases es' with _ | ⟨e2, rest⟩
    · intro d hd
      exact mem_map_id_dictInsert e1 st.canonical d.canonicalEntityId (h d hd)
    · exact resolveEntityCluster_targets τ st (e1 :: e2 :: rest) h

theorem processClusters_targets (τ : ℚ) (cls : List (String × List Entity)) :
    ∀ st : RState,
      (∀ d ∈ st.decisions, d.canonicalEntityId ∈ st.canonical.map Entity.id) →
      ∀ d ∈ (cls.foldl (processCluster τ) st).decisions,
        d.canonicalEntityId ∈ (cls.foldl (processCluster τ) st).canonical.map Entity.id := by
  induction cls with
  | nil => intro st h; exact h
  | cons cl rest ih =>
    intro st h
    rw [List.foldl_cons]
    exact ih _ (processCluster_targets τ st cl h)

theorem resolveByType_targets (τ : ℚ) (st : RState) (es : List Entity)
    (h : ∀ d ∈ st.decisions, d.canonicalEntityId ∈ st.canonical.map Entity.id) :
    ∀ d ∈ (resolveByType τ st es).decisions,
      d.canonicalEntityId ∈ (resolveByType τ st es).canonical.map Entity.id := by
  rw [resolveByType]
  exact processClusters_targets τ _ st h

theorem fuzzyResolve_targets (τ : ℚ) (es : List Entity) :
    ∀ d ∈ (fuzzyResolve τ es).decisions,
      d.canonicalEntityId ∈ (fuzzyResolve τ es).canonical.map Entity.id := by
  rw [fuzzyResolve]
  have : ∀ (groups : List (EntityType × List Entity)) (st : RState),
      (∀ d ∈ st.decisions, d.canonicalEntityId ∈ st.canonical.map Entity.id) →
      ∀ d ∈ (groups.foldl (fun s p => resolveByType τ s p.2) st).decisions,
        d.canonicalEntityId ∈
          (groups.foldl (fun s p => resolveByType τ s p.2) st).canonical.map Entity.id := by
    intro groups
    induction groups with
    | nil => intro st h; exact h
    | cons g rest ih =>
      intro st h
      rw [List.foldl_cons]
      exact ih _ (resolveByType_targets τ st g.2 h)
  exact this _ ⟨[], []⟩ (by intro d hd; simp at hd)

theorem acronymFold_targets (τa : ℚ) (canon : List Entity) (single : List Entity)
    (multi : List Entity) (hsub : ∀ m ∈ multi, m ∈ canon) :
    ∀ acc : List EntityDecision × List String,
      (∀ d ∈ acc.1, d.canonicalEntityId ∈ canon.map Entity.id) →
      ∀ d ∈ (multi.foldl
        (fun (acc : List EntityDecision × List String) mw =>
          match single.find? (fun sw =>
              decide (sw.type = mw.type) &&
                qleb τa (ratioS (acronymOf mw.name) (upperStr sw.name))) with
          | some sw =>
            (acc.1 ++
                [⟨mw.id, [sw.id],
                  qdiv (ratioS (acronymOf mw.name) (upperStr sw.name)) (qnat 100),
                  "acronym_match", Rat.divInt 9 10⟩],
              acc.2 ++ [sw.id])
          | none => acc) acc).1, d.canonicalEntityId ∈ canon.map Entity.id := by
  induction multi with
  | nil => intro acc h; exact h
  | cons mw ms ih =>
    intro acc h
    rw [List.foldl_cons]
    rcases hf : single.find? (fun sw =>
        decide (sw.type = mw.type) &&
          qleb τa (ratioS (acronymOf mw.name) (upperStr sw.name))) with _ | sw
    · simp only [hf]
      exact ih (fun m hm => hsub m (List.mem_cons_of_mem mw hm)) acc h
    · simp only [hf]
      refine ih (fun m hm => hsub m (List.mem_cons_of_mem mw hm)) _ ?_
      intro d hd
      rcases List.mem_append.mp hd with h2 | h2
      · exact h d h2
      · rw [List.mem_singleton.mp h2]
        exact List.mem_map_of_mem Entity.id (hsub mw (List.mem_cons_self mw ms))

theorem acronymStep_targets (τa : ℚ) (canon : List Entity) :
    ∀ d ∈ (acronymStep τa canon).1, d.canonicalEntityId ∈ canon.map Entity.id := by
  rw [acronymStep]
  exact acronymFold_targets τa canon _ _
    (fun m hm => List.mem_of_mem_filter hm) ([], []) (by intro d hd; simp at hd)

theorem lookupOrSelf_eq_self (m : List (String × String)) (x : String)
    (h : x ∉ m.map Prod.fst) : lookupOrSelf m x = x := by
  rw [lookupOrSelf]
  have : m.find? (fun p => decide (p.1 = x)) = none := by
    rw [List.find?_eq_none]
    intro p hp
    simp only [decide_eq_true_iff]
    intro hc
    exact h (hc ▸ List.mem_map_of_mem Prod.fst hp)
  rw [this]

/-- C1 (amended): the ID-remap table built from the entity-resolution
decisions is total over input entity ids (every input id is a canonical
output id or a remap key) and idempotent on canonical ids (`m.get(c, c)`
returns every canonical id unchanged), but it is only *weakly* closed: a
remap target is either a final canonical id or itself a remap key.  Strict
closure fails, because a fuzzy-match decision can remap a retired id to a
medoid that the later acronym pass itself retires (see the counterexample);
hypotheses: input ids are distinct and every input name passes the pairwise
self-similarity test. -/
theorem c1_remap_amended (τ τa : ℚ) (es : List Entity)
    (hids : (es.map Entity.id).Nodup)
    (hsim : ∀ e ∈ es, similarityTest τ e.name e.name = true) :
    (∀ e ∈ es, e.id ∈ (resolveEntities τ τa true es).1.map Entity.id ∨
      e.id ∈ (buildEntityIdMapping (resolveEntities τ τa true es).2).map Prod.fst) ∧
    (∀ c ∈ (resolveEntities τ τa true es).1,
      lookupOrSelf (buildEntityIdMapping (resolveEntities τ τa true es).2) c.id = c.id) ∧
    (∀ p ∈ buildEntityIdMapping (resolveEntities τ τa true es).2,
      p.2 ∈ (resolveEntities τ τa true es).1.map Entity.id ∨
        p.2 ∈ (buildEntityIdMapping (resolveEntities τ τa true es).2).map Prod.fst) := by
  rw [resolveEntities_acr]
  have hfz := fuzzyResolve_perm τ es hids hsim
  have hnodup : ((fuzzyResolve τ es).canonical.map Entity.id ++
      decsDups (fuzzyResolve τ es).decisions).Nodup := hfz.symm.nodup hids
  have hdisj : ∀ x ∈ (fuzzyResolve τ es).canonical.map Entity.id,
      x ∉ decsDups (fuzzyResolve τ es).decisions := by
    rw [List.nodup_append] at hnodup
    exact fun x hx hc => hnodup.2.2 hx hc
  have hkeys : ∀ x, x ∈ (buildEntityIdMapping ((fuzzyResolve τ es).decisions ++
      (acronymStep τa (fuzzyResolve τ es).canonical).1)).map Prod.fst ↔
      x ∈ decsDups (fuzzyResolve τ es).decisions ∨
        x ∈ (acronymStep τa (fuzzyResolve τ es).canonical).2 := by
    intro x
    rw [buildEntityIdMapping_keys, decsDups_append, List.mem_append,
      acronymStep_dups]
  have hcanonCase : ∀ x, x ∈ (fuzzyResolve τ es).canonical.map Entity.id →
      x ∈ ((fuzzyResolve τ es).canonical.filter
          (fun c => decide (c.id ∉ (acronymStep τa (fuzzyResolve τ es).canonical).2))).map
        Entity.id ∨
      x ∈ (buildEntityIdMapping ((fuzzyResolve τ es).decisions ++
        (acronymStep τa (fuzzyResolve τ es).canonical).1)).map Prod.fst := by
    intro x hx
    rcases List.mem_map.mp hx with ⟨c, hc, rfl⟩
    by_cases hrem : c.id ∈ (acronymStep τa (fuzzyResolve τ es).canonical).2
    · exact Or.inr ((hkeys c.id).mpr (Or.inr hrem))
    · refine Or.inl (List.mem_map_of_mem Entity.id ?_)
      exact List.mem_filter.mpr ⟨hc, by simpa using hrem⟩
  refine ⟨?_, ?_, ?_⟩
  · intro e he
    have hin : e.id ∈ (fuzzyResolve τ es).canonical.map Entity.id ++
        decsDups (fuzzyResolve τ es).decisions :=
      hfz.symm.mem_iff.mp (List.mem_map_of_mem Entity.id he)
    rcases List.mem_append.mp hin with h1 | h1
    · exact hcanonCase e.id h1
    · exact Or.inr ((hkeys e.id).mpr (Or.inl h1))
  · intro c hc
    have hcan : c ∈ (fuzzyResolve τ es).canonical := List.mem_of_mem_filter hc
    have hrem : c.id ∉ (acronymStep τa (fuzzyResolve τ es).canonical).2 := by
      have := (List.mem_filter.mp hc).2
      simpa using this
    refine lookupOrSelf_eq_self _ c.id ?_
    rw [hkeys]
    rintro (h1 | h1)
    · exact hdisj c.id (List.mem_map_of_mem Entity.id hcan) h1
    · exact hrem h1
  · intro p hp
    rcases buildEntityIdMapping_mem _ p hp with ⟨d, hd, _, htgt⟩
    have htin : d.canonicalEntityId ∈ (fuzzyResolve τ es).canonical.map Entity.id := by
      rcases List.mem_append.mp hd with h1 | h1
      · exact fuzzyResolve_targets τ es d h1
      · exact acronymStep_targets τa _ d h1
    rw [htgt]
    exact hcanonCase d.canonicalEntityId htin

/-- C1 counterexample: on `[entA, entB, entM]` (threshold 80, acronym
threshold 70) the fuzzy pass merges `e2` into `e1` and the acronym pass then
retires `e1` into `m`, so the remap table is `{e2 ↦ e1, e1 ↦ m}` while the
final canonical set is `{m}`: the remap target `e1` is not the id of any
entity in the final canonical set, refuting strict closure. -/
theorem c1_closure_counterexample :
    ("e2", "e1") ∈ buildEntityIdMapping
      (resolveEntities (Rat.divInt 80 1) (Rat.divInt 70 1) true [entA, entB, entM]).2 ∧
    "e1" ∉ (resolveEntities (Rat.divInt 80 1) (Rat.divInt 70 1) true
      [entA, entB, entM]).1.map Entity.id := by
  decide

/-- C1 witness: totality, idempotence and weak closure at the concrete input
`[entA, entB, entM]`. -/
theorem c1_remap_amended_witness :
    (∀ e ∈ ([entA, entB, entM] : List Entity),
      e.id ∈ (resolveEntities (Rat.divInt 80 1) (Rat.divInt 70 1) true
          [entA, entB, entM]).1.map Entity.id ∨
        e.id ∈ (buildEntityIdMapping (resolveEntities (Rat.divInt 80 1) (Rat.divInt 70 1) true
          [entA, entB, entM]).2).map Prod.fst) ∧
    (∀ c ∈ (resolveEntities (Rat.divInt 80 1) (Rat.divInt 70 1) true [entA, entB, entM]).1,
      lookupOrSelf (buildEntityIdMapping (resolveEntities (Rat.divInt 80 1)
        (Rat.divInt 70 1) true [entA, entB, entM]).2) c.id = c.id) ∧
    (∀ p ∈ buildEntityIdMapping (resolveEntities (Rat.divInt 80 1) (Rat.divInt 70 1) true
        [entA, entB, entM]).2,
      p.2 ∈ (resolveEntities (Rat.divInt 80 1) (Rat.divInt 70 1) true
          [entA, entB, entM]).1.map Entity.id ∨
        p.2 ∈ (buildEntityIdMapping (resolveEntities (Rat.divInt 80 1) (Rat.divInt 70 1) true
          [entA, entB, entM]).2).map Prod.fst) :=
  c1_remap_amended (Rat.divInt 80 1) (Rat.divInt 70 1) [entA, entB, entM]
    (by decide) (by decide)

theorem upsert_fresh {κ α : Type} [DecidableEq κ] (k : κ) (v : α) (acc : List (κ × List α))
    (h : k ∉ acc.map Prod.fst) : upsert k v acc = acc ++ [(k, [v])] := by
  induction acc with
  | nil => rfl
  | cons g rest ih =>
    rcases g with ⟨k1, vs⟩
    rw [List.map_cons, List.mem_cons] at h
    push_neg at h
    rw [upsert, if_neg (fun hc => h.1 hc.symm), ih h.2, List.cons_append]

theorem groupByKey_nodup_keys_aux {κ α : Type} [DecidableEq κ] (key : α → κ) :
    ∀ (l : List α) (acc : List (κ × List α)),
      (∀ x ∈ l, key x ∉ acc.map Prod.fst) → (l.map key).Nodup →
      l.foldl (fun acc x => upsert (key x) x acc) acc =
        acc ++ l.map (fun x => (key x, [x])) := by
  intro l
  induction l with
  | nil => intro acc _ _; rw [List.foldl_nil, List.map_nil, List.append_nil]
  | cons x xs ih =>
    intro acc hfresh hnd
    rw [List.map_cons, List.nodup_cons] at hnd
    rw [List.foldl_cons, upsert_fresh _ _ acc (hfresh x (List.mem_cons_self x xs)), ih]
    · rw [List.map_cons, List.append_assoc, List.singleton_append]
    · intro y hy
      rw [List.map_append, List.mem_append]
      rintro (h1 | h1)
      · exact hfresh y (List.mem_cons_of_mem x hy) h1
      · rw [List.map_cons, List.map_nil, List.mem_singleton] at h1
        have h2 := List.mem_map_of_mem key hy
        rw [h1] at h2
        exact hnd.1 h2
    · exact hnd.2

theorem groupByKey_nodup_keys {κ α : Type} [DecidableEq κ] (key : α → κ) (l : List α)
    (h : (l.map key).Nodup) : groupByKey key l = l.map (fun x => (key x, [x])) := by
  rw [groupByKey, groupByKey_nodup_keys_aux key l [] (by intro x _ hc; simp at hc) h,
    List.nil_append]

theorem formClustersGo_singleton_aux (τ : ℚ) (tes : List Entity)
    (hnames : (tes.map (fun e => e.name)).Nodup)
    (hself : ∀ e ∈ tes, similarityTest τ e.name e.name = true)
    (hdist : ∀ a ∈ tes, ∀ b ∈ tes, a.name ≠ b.name → similarityTest τ a.name b.name = false) :
    ∀ (suf pre : List Entity), tes = pre ++ suf →
      formClustersGo τ (tes.map (fun e => (e.name, [e]))) (suf.map (fun e => e.name))
        (pre.map (fun e => e.name)) = suf.map (fun e => (e.name, [e])) := by
  intro suf
  induction suf with
  | nil => intro pre _; rfl
  | cons e rest ih =>
    intro pre h
    have hsplitnames := hnames
    rw [h, List.map_append, List.map_cons] at hsplitnames
    rw [List.nodup_append] at hsplitnames
    have hnpre : e.name ∉ pre.map (fun e => e.name) := by
      intro hc
      exact hsplitnames.2.2 hc (List.mem_cons_self _ _)
    have hnrest : e.name ∉ rest.map (fun e => e.name) :=
      (List.nodup_cons.mp hsplitnames.2.1).1
    have hmem_e : e ∈ tes := by rw [h]; exact List.mem_append.mpr (Or.inr
      (List.mem_cons_self e rest))
    have hfil : (tes.map (fun x => (x.name, [x]))).filter
        (fun b => decide (b.1 ∉ pre.map (fun e => e.name)) &&
          similarityTest τ e.name b.1) = [(e.name, [e])] := by
      rw [h, List.map_append, List.map_cons, List.filter_append, List.filter_cons]
      have h1 : (pre.map (fun x => (x.name, [x]))).filter
          (fun b => decide (b.1 ∉ pre.map (fun e => e.name)) &&
            similarityTest τ e.name b.1) = [] := by
        rw [List.filter_eq_nil_iff]
        intro b hb
        rcases List.mem_map.mp hb with ⟨y, hy, rfl⟩
        simp only [Bool.and_eq_true, decide_eq_true_iff, not_and]
        intro hc
        exact absurd (List.mem_map_of_mem (fun e => e.name) hy) hc
      have h2 : (rest.map (fun x => (x.name, [x]))).filter
          (fun b => decide (b.1 ∉ pre.map (fun e => e.name)) &&
            similarityTest τ e.name b.1) = [] := by
        rw [List.filter_eq_nil_iff]
        intro b hb
        rcases List.mem_map.mp hb with ⟨y, hy, rfl⟩
        have hyt : y ∈ tes := by
          rw [h]
          exact List.mem_append.mpr (Or.inr (List.mem_cons_of_mem e hy))
        have hne : e.name ≠ y.name := by
          intro hc
          exact hnrest (hc ▸ List.mem_map_of_mem (fun e => e.name) hy)
        have := hdist e hmem_e y hyt hne
        simp only [Bool.and_eq_true, not_and]
        intro _
        simp [this]
      have h3 : (decide ((e.name, [e]).1 ∉ pre.map (fun e => e.name)) &&
          similarityTest τ e.name (e.name, [e]).1) = true := by
        rw [Bool.and_eq_true, decide_eq_true_iff]
        exact ⟨hnpre, hself e hmem_e⟩
      rw [h1, h2, if_pos h3, List.nil_append]
    rw [List.map_cons]
    rw [formClustersGo, if_neg hnpre, hfil]
    have hces : ¬(([(e.name, [e])].foldr (fun b acc => b.2 ++ acc) []).isEmpty = true) := by
      intro hc
      simp at hc
    rw [if_neg hces]
    have hused : pre.map (fun e => e.name) ++ [(e.name, [e])].map Prod.fst =
        (pre ++ [e]).map (fun e => e.name) := by
      rw [List.map_append]
      rfl
    rw [hused, ih (pre ++ [e]) (by rw [h, List.append_assoc, List.singleton_append])]
    rfl

theorem formClusters_singleton (τ : ℚ) (tes : List Entity)
    (hnames : (tes.map (fun e => e.name)).Nodup)
    (hself : ∀ e ∈ tes, similarityTest τ e.name e.name = true)
    (hdist : ∀ a ∈ tes, ∀ b ∈ tes, a.name ≠ b.name → similarityTest τ a.name b.name = false) :
    formClusters τ (tes.map (fun e => (e.name, [e]))) = tes.map (fun e => (e.name, [e])) := by
  rw [formClusters]
  have hkeys : (tes.map (fun e => (e.name, [e]))).map Prod.fst =
      tes.map (fun e => e.name) := by
    rw [List.map_map]
    rfl
  rw [hkeys]
  exact formClustersGo_singleton_aux τ tes hnames hself hdist tes [] rfl

theorem sublist_gvals {κ α : Type} (g : κ × List α) (groups : List (κ × List α))
    (hg : g ∈ groups) : g.2.Sublist (gvals groups) := by
  induction groups with
  | nil => simp at hg
  | cons g0 rest ih =>
    rw [gvals_cons]
    rcases List.mem_cons.mp hg with rfl | h2
    · exact List.sublist_append_left _ _
    · exact (ih h2).trans (List.sublist_append_right _ _)

theorem processClusters_singletons (τ : ℚ) (tes : List Entity) :
    ∀ st : RState,
      (∀ e ∈ tes, e.id ∉ st.canonical.map Entity.id) → (tes.map Entity.id).Nodup →
      (tes.map (fun e => (e.name, [e]))).foldl (processCluster τ) st =
        ⟨st.canonical ++ tes, st.decisions⟩ := by
  induction tes with
  | nil =>
    intro st _ _
    rw [List.map_nil, List.foldl_nil, List.append_nil]
  | cons e rest ih =>
    intro st hfresh hnd
    rw [List.map_cons, List.foldl_cons]
    have hstep : processCluster τ st (e.name, [e]) =
        RState.mk (st.canonical ++ [e]) st.decisions := by
      show RState.mk (dictInsert e st.canonical) st.decisions = _
      rw [dictInsert_fresh e st.canonical (hfresh e (List.mem_cons_self e rest))]
    rw [List.map_cons, List.nodup_cons] at hnd
    rw [hstep, ih]
    · rw [List.append_assoc, List.singleton_append]
    · intro x hx
      rw [List.map_append, List.mem_append]
      rintro (h1 | h1)
      · exact hfresh x (List.mem_cons_of_mem e hx) h1
      · rw [List.map_cons, List.map_nil, List.mem_singleton] at h1
        have h2 := List.mem_map_of_mem Entity.id hx
        rw [h1] at h2
        exact hnd.1 h2
    · exact hnd.2

theorem resolveByType_id (τ : ℚ) (st : RState) (tes : List Entity)
    (hnames : (tes.map (fun e => e.name)).Nodup)
    (hself : ∀ e ∈ tes, similarityTest τ e.name e.name = true)
    (hdist : ∀ a ∈ tes, ∀ b ∈ tes, a.name ≠ b.name → similarityTest τ a.name b.name = false)
    (hfresh : ∀ e ∈ tes, e.id ∉ st.canonical.map Entity.id)
    (hnd : (tes.map Entity.id).Nodup) :
    resolveByType τ st tes = ⟨st.canonical ++ tes, st.decisions⟩ := by
  rw [resolveByType, groupByKey_nodup_keys (fun e => e.name) tes hnames,
    formClusters_singleton τ tes hnames hself hdist]
  exact processClusters_singletons τ tes st hfresh hnd

theorem fuzzyFold_id (τ : ℚ) (groups : List (EntityType × List Entity))
    (hnamesG : ∀ g ∈ groups, (g.2.map (fun e => e.name)).Nodup)
    (hselfG : ∀ g ∈ groups, ∀ e ∈ g.2, similarityTest τ e.name e.name = true)
    (hdistG : ∀ g ∈ groups, ∀ a ∈ g.2, ∀ b ∈ g.2, a.name ≠ b.name →
      similarityTest τ a.name b.name = false) :
    ∀ st : RState,
      (∀ e ∈ gvals groups, e.id ∉ st.canonical.map Entity.id) →
      ((gvals groups).map Entity.id).Nodup →
      groups.foldl (fun s p => resolveByType τ s p.2) st =
        ⟨st.canonical ++ gvals groups, st.decisions⟩ := by
  induction groups with
  | nil =>
    intro st _ _
    rw [List.foldl_nil, gvals_nil, List.append_nil]
  | cons g rest ih =>
    intro st hfresh hnd
    rw [gvals_cons, List.map_append, List.nodup_append] at hnd
    rw [List.foldl_cons, resolveByType_id τ st g.2 (hnamesG g (List.mem_cons_self g rest))
      (hselfG g (List.mem_cons_self g rest)) (hdistG g (List.mem_cons_self g rest))
      (fun e he => hfresh e ((mem_gvals _ e).mpr ⟨g, List.mem_cons_self g rest, he⟩)) hnd.1]
    rw [ih (fun g2 hg2 => hnamesG g2 (List.mem_cons_of_mem g hg2))
      (fun g2 hg2 => hselfG g2 (List.mem_cons_of_mem g hg2))
      (fun g2 hg2 => hdistG g2 (List.mem_cons_of_mem g hg2))]
    · rw [gvals_cons, List.append_assoc]
    · intro x hx
      rw [List.map_append, List.mem_append]
      rintro (h1 | h1)
      · refine hfresh x ?_ h1
        rw [gvals_cons, List.mem_append]
        exact Or.inr hx
      · exact hnd.2.2 h1 (List.mem_map_of_mem Entity.id hx)
    · exact hnd.2.1
  
theorem fuzzyResolve_id (τ : ℚ) (es : List Entity)
    (hids : (es.map Entity.id).Nodup)
    (hself : ∀ e ∈ es, similarityTest τ e.name e.name = true)
    (hdist : ∀ a ∈ es, ∀ b ∈ es, a.type = b.type → a.id ≠ b.id →
      similarityTest τ a.name b.name = false) :
    fuzzyResolve τ es = ⟨gvals (groupByKey (fun e => e.type) es), []⟩ := by
  rw [fuzzyResolve]
  have hgv := gvals_groupByKey (fun e => e.type) es
  have hnd : ((gvals (groupByKey (fun e => e.type) es)).map Entity.id).Nodup :=
    ((hgv.map Entity.id).symm).nodup hids
  have hidnodG : ∀ g ∈ groupByKey (fun e => e.type) es, (g.2.map Entity.id).Nodup := by
    intro g hg
    exact List.Nodup.sublist ((sublist_gvals g _ hg).map Entity.id) hnd
  have hdistG : ∀ g ∈ groupByKey (fun e => e.type) es, ∀ a ∈ g.2, ∀ b ∈ g.2,
      a.name ≠ b.name → similarityTest τ a.name b.name = false := by
    intro g hg a ha b hb hne
    have hat := (groupByKey_members (fun e => e.type) es g hg).2 a ha
    have hbt := (groupByKey_members (fun e => e.type) es g hg).2 b hb
    have haes := mem_of_mem_group (fun e => e.type) es g hg a ha
    have hbes := mem_of_mem_group (fun e => e.type) es g hg b hb
    by_cases hid : a.id = b.id
    · exact absurd (congrArg Entity.name (nodup_map_inj Entity.id g.2 (hidnodG g hg)
        a ha b hb hid)) hne
    · exact hdist a haes b hbes (hat.trans hbt.symm) hid
  have hnamesG : ∀ g ∈ groupByKey (fun e => e.type) es,
      (g.2.map (fun e => e.name)).Nodup := by
    intro g hg
    rw [nodup_map_iff_pw]
    have hpw : g.2.Pairwise (fun a b => a.id ≠ b.id) := by
      rw [← nodup_map_iff_pw]
      exact hidnodG g hg
    refine List.Pairwise.imp_of_mem ?_ hpw
    intro a b ha hb hab hc
    have hat := (groupByKey_members (fun e => e.type) es g hg).2 a ha
    have hbt := (groupByKey_members (fun e => e.type) es g hg).2 b hb
    have haes := mem_of_mem_group (fun e => e.type) es g hg a ha
    have hbes := mem_of_mem_group (fun e => e.type) es g hg b hb
    have hfalse := hdist a haes b hbes (hat.trans hbt.symm) hab
    have htrue := hself a haes
    rw [hc] at htrue hfalse
    rw [htrue] at hfalse
    simp at hfalse
  rw [fuzzyFold_id τ _ hnamesG
    (fun g hg e he => hself e (mem_of_mem_group (fun e => e.type) es g hg e he))
    hdistG ⟨[], []⟩ (by intro e _ hc; simp at hc) hnd]
  rw [List.nil_append]

theorem acronymFold_nil (τa : ℚ) (single : List Entity) (multi : List Entity)
    (hnone : ∀ mw ∈ multi, single.find? (fun sw =>
        decide (sw.type = mw.type) &&
          qleb τa (ratioS (acronymOf mw.name) (upperStr sw.name))) = none) :
    ∀ acc : List EntityDecision × List String,
      multi.foldl
        (fun (acc : List EntityDecision × List String) mw =>
          match single.find? (fun sw =>
              decide (sw.type = mw.type) &&
                qleb τa (ratioS (acronymOf mw.name) (upperStr sw.name))) with
          | some sw =>
            (acc.1 ++
                [⟨mw.id, [sw.id],
                  qdiv (ratioS (acronymOf mw.name) (upperStr sw.name)) (qnat 100),
                  "acronym_match", Rat.divInt 9 10⟩],
              acc.2 ++ [sw.id])
          | none => acc) acc = acc := by
  induction multi with
  | nil => intro acc; rfl
  | cons mw ms ih =>
    intro acc
    rw [List.foldl_cons]
    simp only [hnone mw (List.mem_cons_self mw ms)]
    exact ih (fun m hm => hnone m (List.mem_cons_of_mem mw hm)) acc

theorem acronymStep_nil (τa : ℚ) (canon : List Entity)
    (hacr : ∀ mw ∈ canon, ∀ sw ∈ canon, hasSpace mw.name = true → hasSpace sw.name = false →
      (decide (sw.type = mw.type) &&
        qleb τa (ratioS (acronymOf mw.name) (upperStr sw.name))) = false) :
    acronymStep τa canon = ([], []) := by
  rw [acronymStep]
  refine acronymFold_nil τa _ _ ?_ ([], [])
  intro mw hmw
  rw [List.find?_eq_none]
  intro sw hsw
  have h1 := List.mem_of_mem_filter hmw
  have h2 := List.mem_of_mem_filter hsw
  have h3 := List.of_mem_filter hmw
  have h4 := List.of_mem_filter hsw
  have h5 : hasSpace sw.name = false := by
    rcases h : hasSpace sw.name with _ | _
    · rfl
    · rw [h] at h4; simp at h4
  rw [hacr mw h1 sw h2 h3 h5]
  simp

theorem resolveEntities_id (τ τa : ℚ) (es : List Entity)
    (hids : (es.map Entity.id).Nodup)
    (hself : ∀ e ∈ es, similarityTest τ e.name e.name = true)
    (hdist : ∀ a ∈ es, ∀ b ∈ es, a.type = b.type → a.id ≠ b.id →
      similarityTest τ a.name b.name = false)
    (hacr : ∀ mw ∈ es, ∀ sw ∈ es, hasSpace mw.name = true → hasSpace sw.name = false →
      (decide (sw.type = mw.type) &&
        qleb τa (ratioS (acronymOf mw.name) (upperStr sw.name))) = false) :
    (resolveEntities τ τa true es).1.Perm es ∧ (resolveEntities τ τa true es).2 = [] := by
  have hgv := gvals_groupByKey (fun e => e.type) es
  have hfe := fuzzyResolve_id τ es hids hself hdist
  have hstep : acronymStep τa (gvals (groupByKey (fun e => e.type) es)) = ([], []) := by
    refine acronymStep_nil τa _ ?_
    intro mw hmw sw hsw
    exact hacr mw (hgv.mem_iff.mp hmw) sw (hgv.mem_iff.mp hsw)
  rw [resolveEntities_acr, hfe]
  show ((gvals (groupByKey (fun e => e.type) es)).filter (fun c => decide (c.id ∉
      (acronymStep τa (gvals (groupByKey (fun e => e.type) es))).2))).Perm es ∧
    ([] ++ (acronymStep τa (gvals (groupByKey (fun e => e.type) es))).1 =
      ([] : List EntityDecision))
  rw [hstep]
  refine ⟨?_, rfl⟩
  have hfil : (gvals (groupByKey (fun e => e.type) es)).filter
      (fun c => decide (c.id ∉ (([], []) :
        List EntityDecision × List String).2)) =
      gvals (groupByKey (fun e => e.type) es) := by
    rw [List.filter_eq_self]
    intro e _
    simp
  rw [hfil]
  exact hgv

theorem foldl_singleton_groups {α κ β : Type} (key : α → κ)
    (F : (List α × List β) → κ × List α → (List α × List β))
    (hF : ∀ (acc : List α × List β) (x : α), F acc (key x, [x]) = (acc.1 ++ [x], acc.2)) :
    ∀ (l : List α) (acc : List α × List β),
      (l.map (fun x => (key x, [x]))).foldl F acc = (acc.1 ++ l, acc.2) := by
  intro l
  induction l with
  | nil => intro acc; rw [List.map_nil, List.foldl_nil, List.append_nil]
  | cons x xs ih =>
    intro acc
    rw [List.map_cons, List.foldl_cons, hF acc x, ih, List.append_assoc, List.singleton_append]

theorem removeExactDuplicates_id (rels : List Relationship)
    (hnd : (rels.map spoKey).Nodup) :
    removeExactDuplicates rels = (rels, []) := by
  rw [removeExactDuplicates, groupByKey_nodup_keys spoKey rels hnd,
    foldl_singleton_groups spoKey _ (fun acc r => rfl) rels ([], []), List.nil_append]

theorem consolidateRelationshipGroup_id (cm : ConsolidationMethod) (g : List Relationship)
    (hnd : (g.map Relationship.predicate).Nodup) :
    consolidateRelationshipGroup cm g = (g, []) := by
  rw [consolidateRelationshipGroup]
  by_cases hl : g.length ≤ 1
  · rw [if_pos hl]
  · rw [if_neg hl, groupByKey_nodup_keys Relationship.predicate g hnd,
      foldl_singleton_groups Relationship.predicate _ (fun acc r => rfl) g ([], []),
      List.nil_append]

theorem consolidateFold_id (cm : ConsolidationMethod) :
    ∀ (G : List (List String × List Relationship)),
      (∀ g ∈ G, 2 ≤ g.2.length → consolidateRelationshipGroup cm g.2 = (g.2, [])) →
      ∀ acc : List Relationship × List RelationshipDecision,
        G.foldl
          (fun acc g =>
            match g.2 with
            | [] => acc
            | [r] => (acc.1 ++ [r], acc.2)
            | r1 :: r2 :: rest =>
              let res := consolidateRelationshipGroup cm (r1 :: r2 :: rest)
              (acc.1 ++ res.1, acc.2 ++ res.2)) acc =
        (acc.1 ++ gvals G, acc.2) := by
  intro G
  induction G with
  | nil => intro _ acc; rw [List.foldl_nil, gvals_nil, List.append_nil]
  | cons g rest ih =>
    intro hG acc
    rw [List.foldl_cons, gvals_cons]
    rcases hg2 : g.2 with _ | ⟨r1, rs⟩
    · simp only [hg2]
      rw [List.nil_append]
      exact ih (fun g2 hg => hG g2 (List.mem_cons_of_mem _ hg)) acc
    · rcases rs with _ | ⟨r2, rs2⟩
      · simp only [hg2]
        rw [ih (fun g2 hg => hG g2 (List.mem_cons_of_mem _ hg)), List.append_assoc,
          List.singleton_append]
      · have hcrg := hG g (List.mem_cons_self g rest) (by rw [hg2]; simp)
        rw [hg2] at hcrg
        simp only [hg2, hcrg]
        rw [ih (fun g2 hg => hG g2 (List.mem_cons_of_mem _ hg)), List.append_nil,
          List.append_assoc]

theorem consolidateSimilar_id (cm : ConsolidationMethod) (rels : List Relationship)
    (hnd : (rels.map (fun r => (pairKey r, r.predicate))).Nodup) :
    (consolidateSimilarRelationships cm rels).1.Perm rels ∧
      (consolidateSimilarRelationships cm rels).2 = [] := by
  have hGmem : ∀ g ∈ groupByKey pairKey rels, 2 ≤ g.2.length →
      consolidateRelationshipGroup cm g.2 = (g.2, []) := by
    intro g hg _
    refine consolidateRelationshipGroup_id cm g.2 ?_
    have hsub : g.2.Sublist (gvals (groupByKey pairKey rels)) := sublist_gvals g _ hg
    have hperm := (gvals_groupByKey pairKey rels).map (fun r => (pairKey r, r.predicate))
    have hpairs : (g.2.map (fun r => (pairKey r, r.predicate))).Nodup :=
      List.Nodup.sublist (hsub.map _) (hperm.symm.nodup hnd)
    rw [nodup_map_iff_pw] at hpairs ⊢
    refine List.Pairwise.imp_of_mem ?_ hpairs
    intro a b ha hb hab hc
    have hka := (groupByKey_members pairKey rels g hg).2 a ha
    have hkb := (groupByKey_members pairKey rels g hg).2 b hb
    exact hab (by rw [hka, hkb, hc])
  have hfold := consolidateFold_id cm (groupByKey pairKey rels) hGmem ([], [])
  rw [consolidateSimilarRelationships, hfold, List.nil_append]
  exact ⟨gvals_groupByKey pairKey rels, rfl⟩

theorem spo_nodup_of_pairpred (rels : List Relationship)
    (hnd : (rels.map (fun r => (pairKey r, r.predicate))).Nodup) :
    (rels.map spoKey).Nodup := by
  rw [nodup_map_iff_pw] at hnd ⊢
  refine hnd.imp ?_
  intro a b hab hc
  apply hab
  rw [spoKey, spoKey, Prod.mk.injEq, Prod.mk.injEq] at hc
  obtain ⟨hs, hp, ho⟩ := hc
  rw [Prod.mk.injEq]
  exact ⟨by rw [pairKey, pairKey, hs, ho], hp⟩

theorem resolveRelationships_id (cm : ConsolidationMethod) (rels : List Relationship)
    (hnd : (rels.map (fun r => (pairKey r, r.predicate))).Nodup) :
    (resolveRelationships cm rels []).1.Perm rels ∧
      (resolveRelationships cm rels []).2 = [] := by
  have hd := removeExactDuplicates_id rels (spo_nodup_of_pairpred rels hnd)
  have h1 : resolveRelationships cm rels [] =
      ((consolidateSimilarRelationships cm rels).1,
        [] ++ (consolidateSimilarRelationships cm rels).2) := by
    rw [resolveRelationships]
    show ((consolidateSimilarRelationships cm (removeExactDuplicates rels).1).1,
        (removeExactDuplicates rels).2 ++
          (consolidateSimilarRelationships cm (removeExactDuplicates rels).1).2) = _
    rw [hd]
  rw [h1, List.nil_append]
  exact consolidateSimilar_id cm rels hnd

/-- C2 (amended): `resolve` is the identity (up to the id-keyed dict's
reordering, i.e. up to permutation) on inputs in which no two distinct
same-type entities still pass the pairwise clustering test and no acronym
match survives, and whose relationships have pairwise-distinct
(unordered-pair, predicate) keys: the canonical entities are a permutation
of the input, no entity decision is recorded, the consolidated
relationships are a permutation of the input relationships, and no
relationship decision is recorded.  The claim's unconditional idempotence
statement fails, because a first run can commit a singleton cluster without
the cross-cluster canonical-matching test and leave two same-type canonical
entities that still cluster; a second run then merges them (see the
counterexample). -/
theorem c2_idempotent_amended (τ τa : ℚ) (cm : ConsolidationMethod)
    (es : List Entity) (rels : List Relationship)
    (hids : (es.map Entity.id).Nodup)
    (hself : ∀ e ∈ es, similarityTest τ e.name e.name = true)
    (hdist : ∀ a ∈ es, ∀ b ∈ es, a.type = b.type → a.id ≠ b.id →
      similarityTest τ a.name b.name = false)
    (hacr : ∀ mw ∈ es, ∀ sw ∈ es, hasSpace mw.name = true → hasSpace sw.name = false →
      (decide (sw.type = mw.type) &&
        qleb τa (ratioS (acronymOf mw.name) (upperStr sw.name))) = false)
    (hrk : (rels.map (fun r => (pairKey r, r.predicate))).Nodup) :
    (resolveEntities τ τa true es).1.Perm es ∧
    (resolveEntities τ τa true es).2 = [] ∧
    (resolveRelationships cm rels
      (buildEntityIdMapping (resolveEntities τ τa true es).2)).1.Perm rels ∧
    (resolveRelationships cm rels
      (buildEntityIdMapping (resolveEntities τ τa true es).2)).2 = [] := by
  obtain ⟨hperm, hdec⟩ := resolveEntities_id τ τa es hids hself hdist hacr
  have hmap : buildEntityIdMapping (resolveEntities τ τa true es).2 = [] := by
    rw [hdec]
    rfl
  rw [hmap]
  obtain ⟨hr1, hr2⟩ := resolveRelationships_id cm rels hrk
  exact ⟨hperm, hdec, hr1, hr2⟩

/-- C2 counterexample: on `[entD1, entD2, entD3]` (KPI names `ab`, `ab cd`,
`cd`) the first run clusters `ab` with `ab cd` (partial ratio 100) and
commits the singleton cluster `cd` without the cross-cluster
canonical-matching test, returning two canonical entities (`d2`, `d3`);
running resolve again on that output clusters `ab cd` with `cd` and returns
a single canonical entity — the second run does not reproduce the first
run's canonical entity set. -/
theorem c2_second_run_counterexample :
    (resolveEntities (Rat.divInt 80 1) (Rat.divInt 70 1) true
      [entD1, entD2, entD3]).1.length = 2 ∧
    (resolveEntities (Rat.divInt 80 1) (Rat.divInt 70 1) true
      (resolveEntities (Rat.divInt 80 1) (Rat.divInt 70 1) true
        [entD1, entD2, entD3]).1).1.length = 1 := by
  decide

/-- C2 witness: the amended identity at a concrete input of two dissimilar
Domain entities and two distinct-key relationships. -/
theorem c2_idempotent_amended_witness :
    (resolveEntities (Rat.divInt 80 1) (Rat.divInt 70 1) true [entP1, entP2]).1.Perm
      [entP1, entP2] ∧
    (resolveEntities (Rat.divInt 80 1) (Rat.divInt 70 1) true [entP1, entP2]).2 = [] ∧
    (resolveRelationships .maxConf [relR1, relR2]
      (buildEntityIdMapping (resolveEntities (Rat.divInt 80 1) (Rat.divInt 70 1) true
        [entP1, entP2]).2)).1.Perm [relR1, relR2] ∧
    (resolveRelationships .maxConf [relR1, relR2]
      (buildEntityIdMapping (resolveEntities (Rat.divInt 80 1) (Rat.divInt 70 1) true
        [entP1, entP2]).2)).2 = [] :=
  c2_idempotent_amended (Rat.divInt 80 1) (Rat.divInt 70 1) .maxConf [entP1, entP2]
    [relR1, relR2] (by decide) (by decide) (by decide) (by decide) (by decide)
